import Mathlib

/-!
Verification of the feblog persistent node-tree core.

This file gives a shallow embedding of the two source modules

  * `strescape.py` — the character escaper `amp_escape`;
  * `nodetree.py`  — the persistent sequence structure `FeNode` /
    `FeTextNode` / `FeTagNode` with its treap-style concatenation
    (`push_back` / `push_front`), splitting (`split_at`), copying,
    isolation and stringification,

and proves the specification claims about them.

Embedding conventions:

  * A Python node object is modelled by its denoted pure tree value
    `FeNode` below.  Every mutation the Python code performs on an
    existing object (flipping the `_copied` flag in `copy`, replacing a
    child with a value-equal clone in `push_copy`) preserves the denoted
    tree, so the public operations are pure functions on these values;
    the heap model in the last section of this file makes that argument
    formal (the denotation of every pre-existing object is invariant
    under every operation).
  * Python `None` children are modelled by `Option FeNode`; `FeNode`,
    `FeTextNode` and `FeTagNode` are the three `FePayload` variants of
    one tree type, since they differ only in `str_self` and the extra
    fields.
  * A Python `dict` of tag properties is modelled by its insertion-order
    association list (keys unique in any dict-built list).
  * `random.randint(0, 2^63-1)` priorities are modelled by an arbitrary
    `Nat` field fixed at construction: every theorem quantifies over all
    priority values.
  * Code paths on which Python would raise (`None.split_at`, reachable
    only with corrupted `size` fields) return `none`.
-/

set_option maxHeartbeats 1600000

/-! ### strescape.py -/

/-- The substitution table `mp` of `amp_escape` (`strescape.py`, lines 13–14). -/
def amp_map : List (Char × String) :=
  [('<', "&lt;"), ('>', "&rt;"), ('"', "&quot;"), (' ', "&nbsp;"), ('&', "&amp;")]

/-- `amp_escape` (`strescape.py`, lines 5–20): fold over the characters,
appending the table entry for a character in the table and the character
itself otherwise. -/
def amp_escape (s : String) : String :=
  s.data.foldl
    (fun t i =>
      match amp_map.lookup i with
      | some r => t ++ r
      | none => t.push i) ""

/-- The spec's substitution table as a plain case function on one character:
`<`→`&lt;`, `>`→`&rt;`, `"`→`&quot;`, space→`&nbsp;`, `&`→`&amp;`, anything
else passes through unchanged. -/
def escCharSpec (c : Char) : String :=
  if c = '<' then "&lt;"
  else if c = '>' then "&rt;"
  else if c = '"' then "&quot;"
  else if c = ' ' then "&nbsp;"
  else if c = '&' then "&amp;"
  else String.singleton c

theorem amp_step_eq (t : String) (c : Char) :
    (match amp_map.lookup c with
      | some r => t ++ r
      | none => t.push c) = t ++ escCharSpec c := by
  by_cases h1 : c = '<'
  · subst h1; rfl
  by_cases h2 : c = '>'
  · subst h2; rfl
  by_cases h3 : c = '"'
  · subst h3; rfl
  by_cases h4 : c = ' '
  · subst h4; rfl
  by_cases h5 : c = '&'
  · subst h5; rfl
  have e1 : (c == '<') = false := by simp [h1]
  have e2 : (c == '>') = false := by simp [h2]
  have e3 : (c == '"') = false := by simp [h3]
  have e4 : (c == ' ') = false := by simp [h4]
  have e5 : (c == '&') = false := by simp [h5]
  have hl : amp_map.lookup c = none := by
    simp [amp_map, List.lookup, e1, e2, e3, e4, e5]
  have hp : t.push c = t ++ String.singleton c := by
    cases t; rfl
  simp [hl, hp, escCharSpec, h1, h2, h3, h4, h5]

theorem foldl_append_shift (L : List String) (a : String) :
    L.foldl (· ++ ·) a = a ++ L.foldl (· ++ ·) "" := by
  induction L generalizing a with
  | nil => simp
  | cons b M ih =>
    rw [List.foldl_cons, List.foldl_cons, ih, ih (("" : String) ++ b)]
    simp [String.append_assoc]

theorem join_cons (a : String) (L : List String) :
    String.join (a :: L) = a ++ String.join L := by
  rw [String.join, String.join, List.foldl_cons, foldl_append_shift]
  simp

theorem amp_foldl_eq (l : List Char) (t : String) :
    l.foldl (fun t i =>
      match amp_map.lookup i with
      | some r => t ++ r
      | none => t.push i) t = t ++ String.join (l.map escCharSpec) := by
  induction l generalizing t with
  | nil => simp [String.join]
  | cons c l ih =>
    rw [List.foldl_cons, ih, amp_step_eq, List.map_cons, join_cons,
      String.append_assoc]

/-- `amp_escape` is the left-to-right character-by-character substitution
given by the spec's table. -/
theorem amp_escape_eq_join (s : String) :
    amp_escape s = String.join (s.data.map escCharSpec) := by
  rw [amp_escape, amp_foldl_eq]
  exact String.empty_append _

theorem foldl_append_data (L : List String) (a : String) :
    (L.foldl (· ++ ·) a).data = a.data ++ (L.map String.data).flatten := by
  induction L generalizing a with
  | nil => simp
  | cons b M ih =>
    rw [List.foldl_cons, ih, String.data_append]
    simp

theorem data_join (L : List String) :
    (String.join L).data = (L.map String.data).flatten := by
  rw [String.join, foldl_append_data]
  rfl

theorem escCharSpec_char_free (c0 c : Char) (h : c ∈ (escCharSpec c0).data) :
    c ≠ '<' ∧ c ≠ '>' ∧ c ≠ '"' ∧ c ≠ ' ' := by
  rw [escCharSpec] at h
  split at h
  · simp only [show ("&lt;" : String).data = ['&', 'l', 't', ';'] from rfl,
      List.mem_cons, List.not_mem_nil, or_false] at h
    rcases h with rfl | rfl | rfl | rfl <;> exact ⟨by decide, by decide, by decide, by decide⟩
  split at h
  · simp only [show ("&rt;" : String).data = ['&', 'r', 't', ';'] from rfl,
      List.mem_cons, List.not_mem_nil, or_false] at h
    rcases h with rfl | rfl | rfl | rfl <;> exact ⟨by decide, by decide, by decide, by decide⟩
  split at h
  · simp only [show ("&quot;" : String).data = ['&', 'q', 'u', 'o', 't', ';'] from rfl,
      List.mem_cons, List.not_mem_nil, or_false] at h
    rcases h with rfl | rfl | rfl | rfl | rfl | rfl <;>
      exact ⟨by decide, by decide, by decide, by decide⟩
  split at h
  · simp only [show ("&nbsp;" : String).data = ['&', 'n', 'b', 's', 'p', ';'] from rfl,
      List.mem_cons, List.not_mem_nil, or_false] at h
    rcases h with rfl | rfl | rfl | rfl | rfl | rfl <;>
      exact ⟨by decide, by decide, by decide, by decide⟩
  split at h
  · simp only [show ("&amp;" : String).data = ['&', 'a', 'm', 'p', ';'] from rfl,
      List.mem_cons, List.not_mem_nil, or_false] at h
    rcases h with rfl | rfl | rfl | rfl | rfl <;>
      exact ⟨by decide, by decide, by decide, by decide⟩
  · rename_i hn1 hn2 hn3 hn4 hn5
    simp only [show (String.singleton c0).data = [c0] from rfl, List.mem_cons,
      List.not_mem_nil, or_false] at h
    subst h
    exact ⟨hn1, hn2, hn3, hn4⟩

/-- Claim C9: `amp_escape` performs exactly the spec's single-pass
left-to-right character substitution — `<`→`&lt;`, `>`→`&rt;`,
`"`→`&quot;`, space→`&nbsp;`, `&`→`&amp;`, everything else unchanged —
and on the concrete input `<A & "B">` it produces
`&lt;A&nbsp;&amp;&nbsp;&quot;B&quot;&rt;`. -/
theorem amp_escape_spec :
    (∀ s : String, amp_escape s = String.join (s.data.map escCharSpec)) ∧
    amp_escape "<A & \"B\">" = "&lt;A&nbsp;&amp;&nbsp;&quot;B&quot;&rt;" :=
  ⟨amp_escape_eq_join, by decide⟩

/-- Claim C10: the output of `amp_escape` never contains `<`, `>`, `"` or a
space, so an escaped attribute value cannot close the quotes or brackets
around it. -/
theorem amp_escape_output_char_free (s : String) (c : Char)
    (h : c ∈ (amp_escape s).data) :
    c ≠ '<' ∧ c ≠ '>' ∧ c ≠ '"' ∧ c ≠ ' ' := by
  rw [amp_escape_eq_join, data_join, List.map_map] at h
  rcases List.mem_flatten.mp h with ⟨piece, hp, hc⟩
  rcases List.mem_map.mp hp with ⟨c0, _, rfl⟩
  exact escCharSpec_char_free c0 c hc

/-- Witness for C10 at a concrete input: the escaped form of `a<b` contains
none of the four delimiter characters (shown here for its first character). -/
theorem amp_escape_output_char_free_witness :
    ('a' ∈ (amp_escape "a<b").data) ∧
      'a' ≠ '<' ∧ 'a' ≠ '>' ∧ 'a' ≠ '"' ∧ 'a' ≠ ' ' :=
  ⟨by decide, amp_escape_output_char_free "a<b" 'a' (by decide)⟩

/-! ### nodetree.py — the pure tree model

`FeNode.mk nodetype rand size prev next payload` models one Python node
object: `nodetype`, `_rand`, the cached `size` field, `_prev`, `_next`,
and the subclass payload (`FePayload.base` for a bare `FeNode`,
`.text` for `FeTextNode`, `.tag` for `FeTagNode` with its `tagname`,
`prop` dict and `_inside`).  The `_copied` flag is not part of the value:
it only controls when `push_copy` replaces a child by a value-equal
clone, which does not change any node's denoted value (proved in the
heap-model section below). -/

mutual

inductive FeNode : Type where
  | mk (nodetype : Nat) (rand : Nat) (size : Nat)
       (prev : Option FeNode) (next : Option FeNode) (payload : FePayload)

inductive FePayload : Type where
  | base
  | text (s : String)
  | tag (tagname : String) (prop : List (String × Option String)) (inside : Option FeNode)

end

def FeNode.nodetype : FeNode → Nat
  | .mk t _ _ _ _ _ => t

def FeNode.rand : FeNode → Nat
  | .mk _ r _ _ _ _ => r

def FeNode.size : FeNode → Nat
  | .mk _ _ s _ _ _ => s

def FeNode.prev : FeNode → Option FeNode
  | .mk _ _ _ p _ _ => p

def FeNode.next : FeNode → Option FeNode
  | .mk _ _ _ _ n _ => n

def FeNode.payload : FeNode → FePayload
  | .mk _ _ _ _ _ pay => pay

mutual

/-- Structural weight (number of constructors, `inside` subtrees included);
used only as a termination measure. -/
def FeNode.wt : FeNode → Nat
  | .mk _ _ _ p n pay => 1 + wtO p + wtO n + wtP pay

def wtO : Option FeNode → Nat
  | none => 0
  | some x => x.wt

def wtP : FePayload → Nat
  | .base => 0
  | .text _ => 0
  | .tag _ _ i => 1 + wtO i

end

theorem wt_of_next {t r s : Nat} {p : Option FeNode} {n : FeNode} {pay : FePayload} :
    n.wt < (FeNode.mk t r s p (some n) pay).wt := by
  simp only [FeNode.wt, wtO]
  omega

theorem wt_of_prev {t r s : Nat} {p : FeNode} {n : Option FeNode} {pay : FePayload} :
    p.wt < (FeNode.mk t r s (some p) n pay).wt := by
  simp only [FeNode.wt, wtO]
  omega

theorem wt_next_lt {self n : FeNode} (h : self.next = some n) : n.wt < self.wt := by
  cases self with
  | mk t r s p nx pay =>
    simp only [FeNode.next] at h
    subst h
    exact wt_of_next

theorem wt_prev_lt {self p : FeNode} (h : self.prev = some p) : p.wt < self.wt := by
  cases self with
  | mk t r s pv nx pay =>
    simp only [FeNode.prev] at h
    subst h
    exact wt_of_prev

/-- The stored `size` of an optional child; an absent child contributes 0
(Python reads `x.size` on present children only). -/
def sizeO : Option FeNode → Nat
  | none => 0
  | some x => x.size

/-- `FeNode.copy` (`nodetree.py` 48–62, with the subclass overrides at
230–237 and 272–281).  The clone carries the same `nodetype`, `_rand`,
`size`, children references, text, tagname, value-copied `prop` dict and
shared `_inside` as the original, so as a value it IS the original; the
only run-time effect is setting the `_copied` flags, which the heap model
shows to be value-invisible. -/
def FeNode.copy (self : FeNode) : FeNode := self

/-- `FeNode.pull` (`nodetree.py` 85–94): recompute the cached `size` from
the stored sizes of the children. -/
def FeNode.pull : FeNode → FeNode
  | .mk t r _ p n pay => .mk t r (1 + sizeO p + sizeO n) p n pay

/-- `FeNode.set_prev` (`nodetree.py` 104–109): copy, replace `_prev`, pull. -/
def FeNode.set_prev (self : FeNode) (x : Option FeNode) : FeNode :=
  match self.copy with
  | .mk t r s _ n pay => (FeNode.mk t r s x n pay).pull

/-- `FeNode.set_next` (`nodetree.py` 110–115): copy, replace `_next`, pull. -/
def FeNode.set_next (self : FeNode) (x : Option FeNode) : FeNode :=
  match self.copy with
  | .mk t r s p _ pay => (FeNode.mk t r s p x pay).pull

/-- `FeNode.get_prev` (`nodetree.py` 96–99): `push_copy` (value-invisible)
then read `_prev`. -/
def FeNode.get_prev (self : FeNode) : Option FeNode := self.prev

/-- `FeNode.get_next` (`nodetree.py` 100–103). -/
def FeNode.get_next (self : FeNode) : Option FeNode := self.next

/-- `FeNode.isolate` (`nodetree.py` 64–73): copy with `_prev` and `_next`
removed, then `pull` (so `size` becomes 1); other fields, `inside`
included, are kept. -/
def FeNode.isolate (self : FeNode) : FeNode :=
  match self.copy with
  | .mk t r s _ _ pay => (FeNode.mk t r s none none pay).pull

/-- Number 1 plus the guard `x and x._rand < self._rand` of
`push_back`/`push_front` (`nodetree.py` 151, 161); only a termination
measure component: the swap branch hands both trees over unchanged, and
its target's guard is then false. -/
def swapGuard (x : Option FeNode) (self : FeNode) : Nat :=
  match x with
  | some xn => if xn.rand < self.rand then 1 else 0
  | none => 0

theorem swapGuard_le (x : Option FeNode) (s : FeNode) : swapGuard x s ≤ 1 := by
  cases x with
  | none => simp [swapGuard]
  | some xn =>
    simp only [swapGuard]
    split <;> omega

mutual

/-- `FeNode.push_back` (`nodetree.py` 149–157): treap merge of `self`
followed by `x`.  If `x` is present and has the smaller `_rand`, the call
is handed to `x.push_front(self)`; otherwise `x` is merged into the
`_next` subtree.  (The Python guard `if x and x._rand < self._rand`
forces the two cases on `x` here; both `x = none` branches are the
guard-false path of the source.) -/
def FeNode.push_back (self : FeNode) (x : Option FeNode) : FeNode :=
  match hx : x with
  | some xn =>
    if xn.rand < self.rand then
      xn.push_front (some self)
    else
      match h : self.next with
      | none => self.set_next x
      | some n => self.set_next (some (n.push_back x))
  | none =>
    match h : self.next with
    | none => self.set_next x
    | some n => self.set_next (some (n.push_back x))
termination_by 2 * (self.wt + wtO x) + swapGuard x self
decreasing_by
· subst hx
  simp only [swapGuard, wtO]
  split <;> omega
· subst hx
  have h1 := wt_next_lt h
  simp only [swapGuard, wtO]
  split <;> omega
· subst hx
  have h1 := wt_next_lt h
  simp only [swapGuard, wtO]
  omega

/-- `FeNode.push_front` (`nodetree.py` 159–167), symmetric to
`push_back`. -/
def FeNode.push_front (self : FeNode) (x : Option FeNode) : FeNode :=
  match hx : x with
  | some xn =>
    if xn.rand < self.rand then
      xn.push_back (some self)
    else
      match h : self.prev with
      | none => self.set_prev x
      | some p => self.set_prev (some (p.push_front x))
  | none =>
    match h : self.prev with
    | none => self.set_prev x
    | some p => self.set_prev (some (p.push_front x))
termination_by 2 * (self.wt + wtO x) + swapGuard x self
decreasing_by
· subst hx
  simp only [swapGuard, wtO]
  split <;> omega
· subst hx
  have h1 := wt_prev_lt h
  simp only [swapGuard, wtO]
  split <;> omega
· subst hx
  have h1 := wt_prev_lt h
  simp only [swapGuard, wtO]
  omega

end

/-- `FeNode.split_at` (`nodetree.py` 181–199).  `none` models the
`AttributeError` Python would raise on `None.split_at(...)`, reachable
only when the cached sizes are inconsistent. -/
def FeNode.split_at (self : FeNode) (k : Int) : Option (Option FeNode × Option FeNode) :=
  if k ≤ 0 then some (none, some self.copy)
  else if (self.size : Int) ≤ k then some (self.copy, none)
  else
    match hp : self.prev with
    | some p =>
      if k ≤ (p.size : Int) then
        match p.split_at k with
        | some (x, y) => some (x, some (self.set_prev y))
        | none => none
      else
        match hn : self.next with
        | some nx =>
          match nx.split_at (k - (p.size : Int) - 1) with
          | some (x, y) => some (some (self.set_next x), y)
          | none => none
        | none => none
    | none =>
      match hn : self.next with
      | some nx =>
        match nx.split_at (k - 1) with
        | some (x, y) => some (some (self.set_next x), y)
        | none => none
      | none => none
termination_by self.wt
decreasing_by
· exact wt_prev_lt hp
· exact wt_next_lt hn
· exact wt_next_lt hn

/-- Python `str(value)` of a property value: `str(None)` is `"None"`. -/
def pyStrOfVal : Option String → String
  | none => "None"
  | some s => s

/-- Python truthiness of a property value: `None` and `""` are falsy. -/
def pyTruthy : Option String → Bool
  | none => false
  | some s => !(s == "")

/-- The `open_tag` string built by `FeTagNode.str_self`
(`nodetree.py` 299–311): start from the tagname, append `=value` for a
`"self"` key, then walk the dict in insertion order appending
` key="escaped(value)"` for truthy non-`"self"` values and ` key` for
falsy values. -/
def openTagOf (tagname : String) (prop : List (String × Option String)) : String :=
  let t0 :=
    match prop.lookup "self" with
    | some v => tagname ++ "=" ++ pyStrOfVal v
    | none => tagname
  prop.foldl
    (fun acc kv =>
      if pyTruthy kv.2 then
        if kv.1 = "self" then acc
        else acc ++ " " ++ kv.1 ++ "=\"" ++ amp_escape (pyStrOfVal kv.2) ++ "\""
      else acc ++ " " ++ kv.1) t0

/-- The format template of `FeTagNode.str_self` (`nodetree.py` 312–314):
angle brackets for nodetype 1 (Target), square brackets otherwise. -/
def wrapTag (nodetype : Nat) (openTag insideStr tagname : String) : String :=
  if nodetype ≠ 0 then "<" ++ openTag ++ ">" ++ insideStr ++ "</" ++ tagname ++ ">"
  else "[" ++ openTag ++ "]" ++ insideStr ++ "[/" ++ tagname ++ "]"

mutual

/-- `FeNode.__str__` (`nodetree.py` 134–137):
`str(prev or "") + str_self() + str(next or "")`. -/
def FeNode.strF : FeNode → String
  | .mk t _ _ p n pay => strO p ++ strSelf t pay ++ strO n

/-- `str(child or "")` for an optional child. -/
def strO : Option FeNode → String
  | none => ""
  | some x => x.strF

/-- `str_self` of each node class: `""` for a bare `FeNode` (line 129–132),
`amp_escape(text)` for `FeTextNode` (215–218), the bracketed open tag with
the stringified `inside` for `FeTagNode` (299–314). -/
def strSelf (nodetype : Nat) : FePayload → String
  | .base => ""
  | .text s => amp_escape s
  | .tag tagname prop inside =>
      wrapTag nodetype (openTagOf tagname prop) (strO inside) tagname

end

/-- `str_self` of a whole node value. -/
def FeNode.ownStr (self : FeNode) : String := strSelf self.nodetype self.payload

mutual

/-- `FeNode.__iter__` (`nodetree.py` 117–127) as the produced list:
in-order traversal yielding `self.isolate()` between the children's
yields. -/
def FeNode.iterF : FeNode → List FeNode
  | .mk t r s p n pay => iterO p ++ [(FeNode.mk t r s p n pay).isolate] ++ iterO n

/-- `for i in (child or [])` over an optional child. -/
def iterO : Option FeNode → List FeNode
  | none => []
  | some x => x.iterF

end

mutual

/-- The actual element count of a subtree (1 for the node itself plus the
counts of the chain children; `inside` is a separate document dimension
and is not counted, matching the constructors that set `size = 1`
whatever `inside` holds). -/
def FeNode.cnt : FeNode → Nat
  | .mk _ _ _ p n _ => 1 + cntO p + cntO n

def cntO : Option FeNode → Nat
  | none => 0
  | some x => x.cnt

end

mutual

/-- The size-additivity invariant of the spec: at every node of the tree
(`inside` subtrees included) the cached `size` field equals
`size(prev) + size(next) + 1` with absent children contributing 0. -/
def sizeOkF : FeNode → Bool
  | .mk _ _ s p n pay =>
      (s == 1 + sizeO p + sizeO n) && sizeOkO p && sizeOkO n && sizeOkP pay

def sizeOkO : Option FeNode → Bool
  | none => true
  | some x => sizeOkF x

def sizeOkP : FePayload → Bool
  | .base => true
  | .text _ => true
  | .tag _ _ i => sizeOkO i

end

/-! ### Claim C1 — size additivity -/

theorem sizeOk_parts {t r s : Nat} {p n : Option FeNode} {pay : FePayload}
    (h : sizeOkF (.mk t r s p n pay) = true) :
    s = 1 + sizeO p + sizeO n ∧ sizeOkO p = true ∧ sizeOkO n = true ∧
      sizeOkP pay = true := by
  simp only [sizeOkF, Bool.and_eq_true, beq_iff_eq] at h
  tauto

theorem sizeOk_next {self n : FeNode} (hs : sizeOkF self = true)
    (h : self.next = some n) : sizeOkF n = true := by
  cases self with
  | mk t r s p nx pay =>
    simp only [FeNode.next] at h
    subst h
    exact (sizeOk_parts hs).2.2.1

theorem sizeOk_prev {self p : FeNode} (hs : sizeOkF self = true)
    (h : self.prev = some p) : sizeOkF p = true := by
  cases self with
  | mk t r s pv nx pay =>
    simp only [FeNode.prev] at h
    subst h
    exact (sizeOk_parts hs).2.1

theorem sizeOk_set_prev {self : FeNode} {x : Option FeNode}
    (hs : sizeOkF self = true) (hx : sizeOkO x = true) :
    sizeOkF (self.set_prev x) = true := by
  cases self with
  | mk t r s p n pay =>
    obtain ⟨-, -, hn, hpay⟩ := sizeOk_parts hs
    simp [FeNode.set_prev, FeNode.copy, FeNode.pull, sizeOkF, hx, hn, hpay]

theorem sizeOk_set_next {self : FeNode} {x : Option FeNode}
    (hs : sizeOkF self = true) (hx : sizeOkO x = true) :
    sizeOkF (self.set_next x) = true := by
  cases self with
  | mk t r s p n pay =>
    obtain ⟨-, hp, -, hpay⟩ := sizeOk_parts hs
    simp [FeNode.set_next, FeNode.copy, FeNode.pull, sizeOkF, hx, hp, hpay]

theorem sizeOk_isolate {self : FeNode} (hs : sizeOkF self = true) :
    sizeOkF self.isolate = true := by
  cases self with
  | mk t r s p n pay =>
    obtain ⟨-, -, -, hpay⟩ := sizeOk_parts hs
    simp [FeNode.isolate, FeNode.copy, FeNode.pull, sizeOkF, sizeO, sizeOkO, hpay]

theorem sizeOk_push :
    (∀ (self : FeNode) (x : Option FeNode), sizeOkF self = true →
      sizeOkO x = true → sizeOkF (self.push_back x) = true) ∧
    (∀ (self : FeNode) (x : Option FeNode), sizeOkF self = true →
      sizeOkO x = true → sizeOkF (self.push_front x) = true) := by
  refine FeNode.push_back.mutual_induct
    (fun self x => sizeOkF self = true → sizeOkO x = true →
      sizeOkF (self.push_back x) = true)
    (fun self x => sizeOkF self = true → sizeOkO x = true →
      sizeOkF (self.push_front x) = true)
    ?_ ?_ ?_ ?_ ?_ ?_ ?_ ?_ ?_ ?_
  · intro self xn hlt ih hs hx
    simp only [sizeOkO] at hx
    rw [FeNode.push_back]
    simp only [hlt, if_true]
    exact ih hx (by simp only [sizeOkO]; exact hs)
  · intro self xn hlt h hs hx
    rw [FeNode.push_back]
    simp only [hlt, if_false]
    split
    · exact sizeOk_set_next hs hx
    · rename_i n heq
      rw [h] at heq
      cases heq
  · intro self xn hlt n h ih hs hx
    rw [FeNode.push_back]
    simp only [hlt, if_false]
    split
    · rename_i heq
      rw [h] at heq
      cases heq
    · rename_i m heq
      rw [h] at heq
      cases heq
      exact sizeOk_set_next hs
        (by simp only [sizeOkO]; exact ih (sizeOk_next hs h) hx)
  · intro self h hs hx
    rw [FeNode.push_back]
    split
    · exact sizeOk_set_next hs hx
    · rename_i n heq
      rw [h] at heq
      cases heq
  · intro self n h ih hs hx
    rw [FeNode.push_back]
    split
    · rename_i heq
      rw [h] at heq
      cases heq
    · rename_i m heq
      rw [h] at heq
      cases heq
      exact sizeOk_set_next hs
        (by simp only [sizeOkO]; exact ih (sizeOk_next hs h) hx)
  · intro self xn hlt ih hs hx
    simp only [sizeOkO] at hx
    rw [FeNode.push_front]
    simp only [hlt, if_true]
    exact ih hx (by simp only [sizeOkO]; exact hs)
  · intro self xn hlt h hs hx
    rw [FeNode.push_front]
    simp only [hlt, if_false]
    split
    · exact sizeOk_set_prev hs hx
    · rename_i n heq
      rw [h] at heq
      cases heq
  · intro self xn hlt n h ih hs hx
    rw [FeNode.push_front]
    simp only [hlt, if_false]
    split
    · rename_i heq
      rw [h] at heq
      cases heq
    · rename_i m heq
      rw [h] at heq
      cases heq
      exact sizeOk_set_prev hs
        (by simp only [sizeOkO]; exact ih (sizeOk_prev hs h) hx)
  · intro self h hs hx
    rw [FeNode.push_front]
    split
    · exact sizeOk_set_prev hs hx
    · rename_i n heq
      rw [h] at heq
      cases heq
  · intro self n h ih hs hx
    rw [FeNode.push_front]
    split
    · rename_i heq
      rw [h] at heq
      cases heq
    · rename_i m heq
      rw [h] at heq
      cases heq
      exact sizeOk_set_prev hs
        (by simp only [sizeOkO]; exact ih (sizeOk_prev hs h) hx)

/-! ### Stringification lemmas and Claim C2 -/

theorem strO_some (a : FeNode) : strO (some a) = a.strF := by
  rw [strO]

theorem strO_none : strO none = "" := by
  rw [strO]

theorem strF_mk {t r s : Nat} {p n : Option FeNode} {pay : FePayload} :
    (FeNode.mk t r s p n pay).strF = strO p ++ strSelf t pay ++ strO n := by
  rw [FeNode.strF]

theorem strF_eq (self : FeNode) :
    self.strF = strO self.prev ++ self.ownStr ++ strO self.next := by
  cases self with
  | mk t r s p n pay =>
    rw [strF_mk]
    rfl

theorem strF_set_next (self : FeNode) (x : Option FeNode) :
    (self.set_next x).strF = strO self.prev ++ self.ownStr ++ strO x := by
  cases self with
  | mk t r s p n pay =>
    rw [FeNode.set_next]
    simp only [FeNode.copy, FeNode.pull, strF_mk]
    rfl

theorem strF_set_prev (self : FeNode) (x : Option FeNode) :
    (self.set_prev x).strF = strO x ++ self.ownStr ++ strO self.next := by
  cases self with
  | mk t r s p n pay =>
    rw [FeNode.set_prev]
    simp only [FeNode.copy, FeNode.pull, strF_mk]
    rfl

theorem strF_isolate (self : FeNode) : self.isolate.strF = self.ownStr := by
  cases self with
  | mk t r s p n pay =>
    rw [FeNode.isolate]
    simp only [FeNode.copy, FeNode.pull, strF_mk, strO_none]
    rw [String.empty_append, String.append_empty]
    rfl

theorem str_push :
    (∀ (self : FeNode) (x : Option FeNode),
      (self.push_back x).strF = self.strF ++ strO x) ∧
    (∀ (self : FeNode) (x : Option FeNode),
      (self.push_front x).strF = strO x ++ self.strF) := by
  refine FeNode.push_back.mutual_induct
    (fun self x => (self.push_back x).strF = self.strF ++ strO x)
    (fun self x => (self.push_front x).strF = strO x ++ self.strF)
    ?_ ?_ ?_ ?_ ?_ ?_ ?_ ?_ ?_ ?_
  · intro self xn hlt ih
    rw [FeNode.push_back]
    simp only [hlt, if_true]
    rw [ih]
    simp [strO_some, strO_none, String.append_assoc]
  · intro self xn hlt h
    rw [FeNode.push_back]
    simp only [hlt, if_false]
    split
    · rw [strF_set_next, strF_eq self, h]
      simp [strO_some, strO_none, String.append_assoc]
    · rename_i n heq
      rw [h] at heq
      cases heq
  · intro self xn hlt n h ih
    rw [FeNode.push_back]
    simp only [hlt, if_false]
    split
    · rename_i heq
      rw [h] at heq
      cases heq
    · rename_i m heq
      rw [h] at heq
      cases heq
      rw [strF_set_next, strO_some, ih, strF_eq self, h]
      simp [strO_some, strO_none, String.append_assoc]
  · intro self h
    rw [FeNode.push_back]
    split
    · rw [strF_set_next, strF_eq self, h]
      simp [strO_some, strO_none, String.append_assoc]
    · rename_i n heq
      rw [h] at heq
      cases heq
  · intro self n h ih
    rw [FeNode.push_back]
    split
    · rename_i heq
      rw [h] at heq
      cases heq
    · rename_i m heq
      rw [h] at heq
      cases heq
      rw [strF_set_next, strO_some, ih, strF_eq self, h]
      simp [strO_some, strO_none, String.append_assoc]
  · intro self xn hlt ih
    rw [FeNode.push_front]
    simp only [hlt, if_true]
    rw [ih]
    simp [strO_some, strO_none, String.append_assoc]
  · intro self xn hlt h
    rw [FeNode.push_front]
    simp only [hlt, if_false]
    split
    · rw [strF_set_prev, strF_eq self, h]
      simp [strO_some, strO_none, String.append_assoc]
    · rename_i n heq
      rw [h] at heq
      cases heq
  · intro self xn hlt n h ih
    rw [FeNode.push_front]
    simp only [hlt, if_false]
    split
    · rename_i heq
      rw [h] at heq
      cases heq
    · rename_i m heq
      rw [h] at heq
      cases heq
      rw [strF_set_prev, strO_some, ih, strF_eq self, h]
      simp [strO_some, strO_none, String.append_assoc]
  · intro self h
    rw [FeNode.push_front]
    split
    · rw [strF_set_prev, strF_eq self, h]
      simp [strO_some, strO_none, String.append_assoc]
    · rename_i n heq
      rw [h] at heq
      cases heq
  · intro self n h ih
    rw [FeNode.push_front]
    split
    · rename_i heq
      rw [h] at heq
      cases heq
    · rename_i m heq
      rw [h] at heq
      cases heq
      rw [strF_set_prev, strO_some, ih, strF_eq self, h]
      simp [strO_some, strO_none, String.append_assoc]

/-- Claim C2: concatenation is a homomorphism on stringification — for all
nodes `A`, `B`, `str(A.push_back(B)) = str(A) ++ str(B)` and
`str(B.push_front(A)) = str(A) ++ str(B)`, whatever tree shape the treap
merge produces. -/
theorem push_str_hom (A B : FeNode) :
    (A.push_back (some B)).strF = A.strF ++ B.strF ∧
    (B.push_front (some A)).strF = A.strF ++ B.strF := by
  refine ⟨?_, ?_⟩
  · rw [str_push.1 A (some B), strO_some]
  · rw [str_push.2 B (some A), strO_some]

/-! ### Count lemmas, size = count, and Claim C7 -/

theorem cntO_some (a : FeNode) : cntO (some a) = a.cnt := by
  rw [cntO]

theorem cntO_none : cntO none = 0 := by
  rw [cntO]

theorem cnt_eq (self : FeNode) : self.cnt = 1 + cntO self.prev + cntO self.next := by
  cases self with
  | mk t r s p n pay =>
    rw [FeNode.cnt]
    rfl

theorem cnt_set_next (self : FeNode) (x : Option FeNode) :
    (self.set_next x).cnt = 1 + cntO self.prev + cntO x := by
  cases self with
  | mk t r s p n pay =>
    rw [FeNode.set_next]
    simp only [FeNode.copy, FeNode.pull]
    rw [FeNode.cnt]
    rfl

theorem cnt_set_prev (self : FeNode) (x : Option FeNode) :
    (self.set_prev x).cnt = 1 + cntO x + cntO self.next := by
  cases self with
  | mk t r s p n pay =>
    rw [FeNode.set_prev]
    simp only [FeNode.copy, FeNode.pull]
    rw [FeNode.cnt]
    rfl

theorem cnt_isolate (self : FeNode) : self.isolate.cnt = 1 := by
  cases self with
  | mk t r s p n pay =>
    rw [FeNode.isolate]
    simp only [FeNode.copy, FeNode.pull]
    rw [FeNode.cnt, cntO_none]

theorem cnt_push :
    (∀ (self : FeNode) (x : Option FeNode),
      (self.push_back x).cnt = self.cnt + cntO x) ∧
    (∀ (self : FeNode) (x : Option FeNode),
      (self.push_front x).cnt = cntO x + self.cnt) := by
  refine FeNode.push_back.mutual_induct
    (fun self x => (self.push_back x).cnt = self.cnt + cntO x)
    (fun self x => (self.push_front x).cnt = cntO x + self.cnt)
    ?_ ?_ ?_ ?_ ?_ ?_ ?_ ?_ ?_ ?_
  · intro self xn hlt ih
    rw [FeNode.push_back]
    simp only [hlt, if_true]
    rw [ih]
    simp only [cntO_some, cntO_none]
    try omega
  · intro self xn hlt h
    rw [FeNode.push_back]
    simp only [hlt, if_false]
    split
    · rw [cnt_set_next, cnt_eq self, h]
      simp only [cntO_some, cntO_none]
      try omega
    · rename_i n heq
      rw [h] at heq
      cases heq
  · intro self xn hlt n h ih
    rw [FeNode.push_back]
    simp only [hlt, if_false]
    split
    · rename_i heq
      rw [h] at heq
      cases heq
    · rename_i m heq
      rw [h] at heq
      cases heq
      rw [cnt_set_next]
      simp only [cntO_some, cntO_none]
      rw [ih, cnt_eq self, h]
      simp only [cntO_some, cntO_none]
      try omega
  · intro self h
    rw [FeNode.push_back]
    split
    · rw [cnt_set_next, cnt_eq self, h]
      simp only [cntO_some, cntO_none]
      try omega
    · rename_i n heq
      rw [h] at heq
      cases heq
  · intro self n h ih
    rw [FeNode.push_back]
    split
    · rename_i heq
      rw [h] at heq
      cases heq
    · rename_i m heq
      rw [h] at heq
      cases heq
      rw [cnt_set_next]
      simp only [cntO_some, cntO_none]
      rw [ih, cnt_eq self, h]
      simp only [cntO_some, cntO_none]
      try omega
  · intro self xn hlt ih
    rw [FeNode.push_front]
    simp only [hlt, if_true]
    rw [ih]
    simp only [cntO_some, cntO_none]
    try omega
  · intro self xn hlt h
    rw [FeNode.push_front]
    simp only [hlt, if_false]
    split
    · rw [cnt_set_prev, cnt_eq self, h]
      simp only [cntO_some, cntO_none]
      try omega
    · rename_i n heq
      rw [h] at heq
      cases heq
  · intro self xn hlt n h ih
    rw [FeNode.push_front]
    simp only [hlt, if_false]
    split
    · rename_i heq
      rw [h] at heq
      cases heq
    · rename_i m heq
      rw [h] at heq
      cases heq
      rw [cnt_set_prev]
      simp only [cntO_some, cntO_none]
      rw [ih, cnt_eq self, h]
      simp only [cntO_some, cntO_none]
      try omega
  · intro self h
    rw [FeNode.push_front]
    split
    · rw [cnt_set_prev, cnt_eq self, h]
      simp only [cntO_some, cntO_none]
      try omega
    · rename_i n heq
      rw [h] at heq
      cases heq
  · intro self n h ih
    rw [FeNode.push_front]
    split
    · rename_i heq
      rw [h] at heq
      cases heq
    · rename_i m heq
      rw [h] at heq
      cases heq
      rw [cnt_set_prev]
      simp only [cntO_some, cntO_none]
      rw [ih, cnt_eq self, h]
      simp only [cntO_some, cntO_none]
      try omega

theorem size_eq_cnt :
    (∀ self : FeNode, sizeOkF self = true → self.size = self.cnt) ∧
    (∀ o : Option FeNode, sizeOkO o = true → sizeO o = cntO o) := by
  have h := sizeOkF.mutual_induct
    (fun self => sizeOkF self = true → self.size = self.cnt)
    (fun _ => True)
    (fun o => sizeOkO o = true → sizeO o = cntO o)
    ?_ ?_ ?_ ?_ ?_ ?_
  · exact ⟨h.1, h.2.2⟩
  · intro t r sz p n pay hp hn _ hs
    obtain ⟨he, hp2, hn2, -⟩ := sizeOk_parts hs
    rw [FeNode.size, FeNode.cnt, he, hp hp2, hn hn2]
  · trivial
  · intro s
    trivial
  · intro tagname prop i _
    trivial
  · intro _
    rw [sizeO, cntO]
  · intro x ih hx
    rw [sizeO, cntO]
    exact ih (by rw [sizeOkO] at hx; exact hx)

/-! ### Iteration lemmas and Claim C5 -/

theorem join_append (L1 L2 : List String) :
    String.join (L1 ++ L2) = String.join L1 ++ String.join L2 := by
  induction L1 with
  | nil =>
    rw [List.nil_append, show String.join [] = "" from rfl, String.empty_append]
  | cons a M ih =>
    rw [List.cons_append, join_cons, join_cons, ih, String.append_assoc]

theorem iterO_some (a : FeNode) : iterO (some a) = a.iterF := by
  rw [iterO]

theorem iterO_none : iterO none = [] := by
  rw [iterO]

theorem iterF_mk {t r s : Nat} {p n : Option FeNode} {pay : FePayload} :
    (FeNode.mk t r s p n pay).iterF
      = iterO p ++ [(FeNode.mk t r s p n pay).isolate] ++ iterO n := by
  rw [FeNode.iterF]

theorem iterF_eq (self : FeNode) :
    self.iterF = iterO self.prev ++ [self.isolate] ++ iterO self.next := by
  cases self with
  | mk t r s p n pay => rw [iterF_mk]; rfl

theorem join_singleton (y : String) : String.join [y] = y := by
  cases y
  rfl

theorem isolate_fields (self : FeNode) :
    self.isolate.prev = none ∧ self.isolate.next = none ∧ self.isolate.size = 1 := by
  cases self with
  | mk t r s p n pay => exact ⟨rfl, rfl, rfl⟩

theorem iter_len :
    (∀ self : FeNode, self.iterF.length = self.cnt) ∧
    (∀ o : Option FeNode, (iterO o).length = cntO o) := by
  refine FeNode.iterF.mutual_induct
    (fun self => self.iterF.length = self.cnt)
    (fun o => (iterO o).length = cntO o)
    ?_ ?_ ?_
  · intro t r s p n pay hp hn
    rw [iterF_mk, FeNode.cnt]
    simp only [List.length_append, List.length_singleton, hp, hn]
    omega
  · simp [iterO_none, cntO_none]
  · intro x ih
    rw [iterO_some, cntO_some]
    exact ih

theorem iter_str :
    (∀ self : FeNode, String.join (self.iterF.map FeNode.strF) = self.strF) ∧
    (∀ o : Option FeNode, String.join ((iterO o).map FeNode.strF) = strO o) := by
  refine FeNode.iterF.mutual_induct
    (fun self => String.join (self.iterF.map FeNode.strF) = self.strF)
    (fun o => String.join ((iterO o).map FeNode.strF) = strO o)
    ?_ ?_ ?_
  · intro t r s p n pay hp hn
    rw [iterF_mk, strF_mk]
    rw [List.map_append, List.map_append, join_append, join_append]
    rw [hp, hn, List.map_singleton, join_singleton, strF_isolate]
    rfl
  · simp [iterO_none, strO_none]
    rfl
  · intro x ih
    rw [iterO_some, strO_some]
    exact ih

theorem iter_isolated :
    (∀ self : FeNode, ∀ e ∈ self.iterF,
      e.prev = none ∧ e.next = none ∧ e.size = 1) ∧
    (∀ o : Option FeNode, ∀ e ∈ iterO o,
      e.prev = none ∧ e.next = none ∧ e.size = 1) := by
  refine FeNode.iterF.mutual_induct
    (fun self => ∀ e ∈ self.iterF, e.prev = none ∧ e.next = none ∧ e.size = 1)
    (fun o => ∀ e ∈ iterO o, e.prev = none ∧ e.next = none ∧ e.size = 1)
    ?_ ?_ ?_
  · intro t r s p n pay hp hn e he
    rw [iterF_mk] at he
    rcases List.mem_append.mp he with he1 | he2
    · rcases List.mem_append.mp he1 with he3 | he4
      · exact hp e he3
      · rw [List.mem_singleton] at he4
        subst he4
        exact isolate_fields _
    · exact hn e he2
  · intro e he
    rw [iterO_none] at he
    cases he
  · intro x ih e he
    rw [iterO_some] at he
    exact ih e he

/-- Claim C5: iterating a node yields exactly `size` items; every yielded
item is an isolated single-element node (`_prev` and `_next` absent,
`size = 1`); and the concatenation of the items' stringifications in yield
order is the stringification of the node, i.e. the yield order is
left-to-right document order. -/
theorem iter_spec (n : FeNode) (hs : sizeOkF n = true) :
    n.iterF.length = n.size ∧
    (∀ e ∈ n.iterF, e.prev = none ∧ e.next = none ∧ e.size = 1) ∧
    String.join (n.iterF.map FeNode.strF) = n.strF := by
  refine ⟨?_, iter_isolated.1 n, iter_str.1 n⟩
  rw [iter_len.1 n, size_eq_cnt.1 n hs]

/-- Witness for C5 on the concrete two-element node
`FeTextNode("a").push_back`-shape `mk`-tree. -/
theorem iter_spec_witness :
    sizeOkF (FeNode.mk 0 5 2 none
      (some (FeNode.mk 0 7 1 none none (.text "b"))) (.text "a")) = true ∧
    ((FeNode.mk 0 5 2 none
      (some (FeNode.mk 0 7 1 none none (.text "b"))) (.text "a")).iterF.length
        = (FeNode.mk 0 5 2 none
      (some (FeNode.mk 0 7 1 none none (.text "b"))) (.text "a")).size ∧
    (∀ e ∈ (FeNode.mk 0 5 2 none
      (some (FeNode.mk 0 7 1 none none (.text "b"))) (.text "a")).iterF,
        e.prev = none ∧ e.next = none ∧ e.size = 1) ∧
    String.join ((FeNode.mk 0 5 2 none
      (some (FeNode.mk 0 7 1 none none (.text "b"))) (.text "a")).iterF.map
        FeNode.strF) = (FeNode.mk 0 5 2 none
      (some (FeNode.mk 0 7 1 none none (.text "b"))) (.text "a")).strF) :=
  ⟨by decide, iter_spec _ (by decide)⟩

/-! ### Split lemmas -/

theorem sizeO_some (a : FeNode) : sizeO (some a) = a.size := by
  rw [sizeO]

theorem sizeO_none : sizeO none = 0 := by
  rw [sizeO]

theorem set_prev_prev (self : FeNode) (x : Option FeNode) : (self.set_prev x).prev = x := by
  cases self; rfl

theorem set_prev_next (self : FeNode) (x : Option FeNode) :
    (self.set_prev x).next = self.next := by
  cases self; rfl

theorem set_prev_size (self : FeNode) (x : Option FeNode) :
    (self.set_prev x).size = 1 + sizeO x + sizeO self.next := by
  cases self; rfl

theorem set_next_prev (self : FeNode) (x : Option FeNode) :
    (self.set_next x).prev = self.prev := by
  cases self; rfl

theorem set_next_next (self : FeNode) (x : Option FeNode) : (self.set_next x).next = x := by
  cases self; rfl

theorem set_next_size (self : FeNode) (x : Option FeNode) :
    (self.set_next x).size = 1 + sizeO self.prev + sizeO x := by
  cases self; rfl

theorem isolate_set_prev (self : FeNode) (x : Option FeNode) :
    (self.set_prev x).isolate = self.isolate := by
  cases self; rfl

theorem isolate_set_next (self : FeNode) (x : Option FeNode) :
    (self.set_next x).isolate = self.isolate := by
  cases self; rfl

theorem iter_set_prev (self : FeNode) (x : Option FeNode) :
    (self.set_prev x).iterF = iterO x ++ [self.isolate] ++ iterO self.next := by
  rw [iterF_eq, set_prev_prev, set_prev_next, isolate_set_prev]

theorem iter_set_next (self : FeNode) (x : Option FeNode) :
    (self.set_next x).iterF = iterO self.prev ++ [self.isolate] ++ iterO x := by
  rw [iterF_eq, set_next_prev, set_next_next, isolate_set_next]

theorem sizeOk_root {self : FeNode} (hs : sizeOkF self = true) :
    self.size = 1 + sizeO self.prev + sizeO self.next := by
  cases self with
  | mk t r s p n pay => exact (sizeOk_parts hs).1

theorem sizeOkO_prev {self : FeNode} (hs : sizeOkF self = true) :
    sizeOkO self.prev = true := by
  cases self with
  | mk t r s p n pay => exact (sizeOk_parts hs).2.1

theorem sizeOkO_next {self : FeNode} (hs : sizeOkF self = true) :
    sizeOkO self.next = true := by
  cases self with
  | mk t r s p n pay => exact (sizeOk_parts hs).2.2.1

theorem iterO_length_sizeO {o : Option FeNode} (hs : sizeOkO o = true) :
    (iterO o).length = sizeO o := by
  rw [iter_len.2, ← size_eq_cnt.2 o hs]

theorem iterF_length_size {self : FeNode} (hs : sizeOkF self = true) :
    self.iterF.length = self.size := by
  rw [iter_len.1, ← size_eq_cnt.1 self hs]

/-- The clamp `min(max(k, 0), s)` of a requested split position to `[0, s]`. -/
def clampK (k : Int) (s : Nat) : Int := min (max k 0) (s : Int)

theorem clampK_of_le_zero {k : Int} {s : Nat} (h : k ≤ 0) : clampK k s = 0 := by
  rw [clampK]; omega

theorem clampK_of_ge {k : Int} {s : Nat} (h : (s : Int) ≤ k) : clampK k s = s := by
  rw [clampK]; omega

theorem clampK_of_between {k : Int} {s : Nat} (h0 : 0 < k) (h1 : k < (s : Int)) :
    clampK k s = k := by
  rw [clampK]; omega

theorem clampK_mem {k : Int} {s : Nat} (h0 : 0 ≤ k) (h1 : k ≤ (s : Int)) :
    clampK k s = k := by
  rw [clampK]; omega

theorem split_master :
    ∀ (self : FeNode) (k : Int), sizeOkF self = true →
      ∃ x y, self.split_at k = some (x, y) ∧
        sizeOkO x = true ∧ sizeOkO y = true ∧
        iterO x = self.iterF.take (clampK k self.size).toNat ∧
        iterO y = self.iterF.drop (clampK k self.size).toNat ∧
        (x = none ↔ clampK k self.size = 0) ∧
        (y = none ↔ clampK k self.size = (self.size : Int)) := by
  refine FeNode.split_at.induct
    (fun self k => sizeOkF self = true →
      ∃ x y, self.split_at k = some (x, y) ∧
        sizeOkO x = true ∧ sizeOkO y = true ∧
        iterO x = self.iterF.take (clampK k self.size).toNat ∧
        iterO y = self.iterF.drop (clampK k self.size).toNat ∧
        (x = none ↔ clampK k self.size = 0) ∧
        (y = none ↔ clampK k self.size = (self.size : Int)))
    ?_ ?_ ?_ ?_ ?_ ?_ ?_ ?_ ?_ ?_
  -- case 1: k ≤ 0
  · intro self k hk hs
    have hr := sizeOk_root hs
    refine ⟨none, some self, ?_, rfl, hs, ?_, ?_, ?_, ?_⟩
    · rw [FeNode.split_at, if_pos hk]
      rfl
    · rw [clampK_of_le_zero hk]
      simp [iterO_none]
    · rw [clampK_of_le_zero hk]
      simp [iterO_some]
    · rw [clampK_of_le_zero hk]
      simp
    · rw [clampK_of_le_zero hk]
      constructor
      · intro h; cases h
      · intro h; exfalso; omega
  -- case 2: 0 < k, size ≤ k
  · intro self k hk1 hk2 hs
    have hr := sizeOk_root hs
    have hcl : clampK k self.size = (self.size : Int) := clampK_of_ge (by omega)
    have hlen := iterF_length_size hs
    refine ⟨some self, none, ?_, hs, rfl, ?_, ?_, ?_, ?_⟩
    · rw [FeNode.split_at, if_neg hk1, if_pos (by omega)]
      rfl
    · rw [hcl, iterO_some]
      have hn : ((self.size : Int)).toNat = self.size := by omega
      rw [hn, List.take_of_length_le (by omega)]
    · rw [hcl, iterO_none]
      have hn : ((self.size : Int)).toNat = self.size := by omega
      rw [hn, List.drop_of_length_le (by omega)]
    · rw [hcl]
      constructor
      · intro h; cases h
      · intro h; exfalso; omega
    · rw [hcl]
      simp
  -- case 3: prev branch, inner split succeeds
  · intro self k hk1 hk2 p hp hkp x y heq IH hs
    have hsp := sizeOkO_prev hs
    rw [hp, sizeOkO] at hsp
    obtain ⟨x2, y2, heq2, hx2, hy2, htake, hdrop, hxiff, hyiff⟩ := IH hsp
    rw [heq] at heq2
    injection heq2 with heq3
    injection heq3 with hx3 hy3
    subst hx3
    subst hy3
    have hr := sizeOk_root hs
    rw [hp, sizeO_some] at hr
    have hk0 : (0 : Int) < k := by omega
    have hklt : k < (self.size : Int) := by omega
    have hcl : clampK k self.size = k := clampK_mem (by omega) (by omega)
    have hclp : clampK k p.size = k := clampK_mem (by omega) (by omega)
    have hlenp : (p.iterF).length = p.size := iterF_length_size hsp
    refine ⟨x, some (self.set_prev y), ?_, hx2, ?_, ?_, ?_, ?_, ?_⟩
    · rw [FeNode.split_at, if_neg hk1, if_neg hk2]
      split
      · rename_i p2 heqp
        rw [hp] at heqp
        injection heqp with heqp2
        subst heqp2
        rw [if_pos hkp, heq]
      · rename_i heqp
        rw [hp] at heqp
        cases heqp
    · rw [sizeOkO]
      exact sizeOk_set_prev hs hy2
    · rw [hcl, iterF_eq, hp, iterO_some]
      rw [List.take_append_of_le_length
          (by rw [List.length_append, hlenp, List.length_singleton]; omega),
        List.take_append_of_le_length (by rw [hlenp]; omega)]
      rw [htake, hclp]
    · rw [hcl, iterO_some, iter_set_prev, iterF_eq, hp, iterO_some]
      rw [List.drop_append_of_le_length
          (by rw [List.length_append, hlenp, List.length_singleton]; omega),
        List.drop_append_of_le_length (by rw [hlenp]; omega)]
      rw [hdrop, hclp]
    · rw [hcl]
      rw [hclp] at hxiff
      exact hxiff
    · rw [hcl]
      constructor
      · intro h; cases h
      · intro h; exfalso; omega
  -- case 4: prev branch, inner split returns none (impossible)
  · intro self k hk1 hk2 p hp hkp heq IH hs
    have hsp := sizeOkO_prev hs
    rw [hp, sizeOkO] at hsp
    obtain ⟨x2, y2, heq2, -⟩ := IH hsp
    rw [heq] at heq2
    cases heq2
  -- case 5: next branch with prev present, inner split succeeds
  · intro self k hk1 hk2 p hp hknp nx hn x y heq IH hs
    have hsn := sizeOkO_next hs
    rw [hn, sizeOkO] at hsn
    obtain ⟨x2, y2, heq2, hx2, hy2, htake, hdrop, hxiff, hyiff⟩ := IH hsn
    rw [heq] at heq2
    injection heq2 with heq3
    injection heq3 with hx3 hy3
    subst hx3
    subst hy3
    have hr := sizeOk_root hs
    rw [hp, sizeO_some, hn, sizeO_some] at hr
    have hklt : k < (self.size : Int) := by omega
    have hcl : clampK k self.size = k := clampK_mem (by omega) (by omega)
    have hcln : clampK (k - (p.size : Int) - 1) nx.size = k - (p.size : Int) - 1 :=
      clampK_mem (by omega) (by omega)
    have hlenp : (p.iterF).length = p.size := iterF_length_size (by
      have h2 := sizeOkO_prev hs
      rw [hp, sizeOkO] at h2
      exact h2)
    have hlen1 : (p.iterF ++ [self.isolate]).length = p.size + 1 := by
      rw [List.length_append, hlenp, List.length_singleton]
    have hksplit : (clampK k self.size).toNat
        = (p.iterF ++ [self.isolate]).length + (k - (p.size : Int) - 1).toNat := by
      rw [hcl, hlen1]
      omega
    refine ⟨some (self.set_next x), y, ?_, ?_, hy2, ?_, ?_, ?_, ?_⟩
    · rw [FeNode.split_at, if_neg hk1, if_neg hk2]
      split
      · rename_i p2 heqp
        rw [hp] at heqp
        injection heqp with heqp2
        subst heqp2
        rw [if_neg hknp]
        split
        · rename_i nx2 heqn
          rw [hn] at heqn
          injection heqn with heqn2
          subst heqn2
          rw [heq]
        · rename_i heqn
          rw [hn] at heqn
          cases heqn
      · rename_i heqp
        rw [hp] at heqp
        cases heqp
    · rw [sizeOkO]
      exact sizeOk_set_next hs hx2
    · have hRHS : List.take (clampK k self.size).toNat self.iterF
          = (p.iterF ++ [self.isolate])
            ++ List.take (k - (p.size : Int) - 1).toNat nx.iterF := by
        rw [iterF_eq, hp, hn, iterO_some, iterO_some, hksplit, List.take_append]
      rw [hRHS, iterO_some, iter_set_next, hp, iterO_some, htake, hcln]
    · have hRHS : List.drop (clampK k self.size).toNat self.iterF
          = List.drop (k - (p.size : Int) - 1).toNat nx.iterF := by
        rw [iterF_eq, hp, hn, iterO_some, iterO_some, hksplit, List.drop_append]
      rw [hRHS, hdrop, hcln]
    · rw [hcl]
      constructor
      · intro h; cases h
      · intro h; exfalso; omega
    · rw [hcl]
      rw [hcln] at hyiff
      rw [hyiff]
      omega
  -- case 6: next branch with prev present, inner split none (impossible)
  · intro self k hk1 hk2 p hp hknp nx hn heq IH hs
    have hsn := sizeOkO_next hs
    rw [hn, sizeOkO] at hsn
    obtain ⟨x2, y2, heq2, -⟩ := IH hsn
    rw [heq] at heq2
    cases heq2
  -- case 7: prev present, k beyond prev, next absent (impossible under sizeOk)
  · intro self k hk1 hk2 p hp hknp hn hs
    exfalso
    have hr := sizeOk_root hs
    rw [hp, sizeO_some, hn, sizeO_none] at hr
    omega
  -- case 8: prev absent, next present, inner split succeeds
  · intro self k hk1 hk2 hp nx hn x y heq IH hs
    have hsn := sizeOkO_next hs
    rw [hn, sizeOkO] at hsn
    obtain ⟨x2, y2, heq2, hx2, hy2, htake, hdrop, hxiff, hyiff⟩ := IH hsn
    rw [heq] at heq2
    injection heq2 with heq3
    injection heq3 with hx3 hy3
    subst hx3
    subst hy3
    have hr := sizeOk_root hs
    rw [hp, sizeO_none, hn, sizeO_some] at hr
    have hklt : k < (self.size : Int) := by omega
    have hcl : clampK k self.size = k := clampK_mem (by omega) (by omega)
    have hcln : clampK (k - 1) nx.size = k - 1 := clampK_mem (by omega) (by omega)
    have hlen1 : ((iterO (none : Option FeNode)) ++ [self.isolate]).length = 1 := by
      rw [iterO_none]
      rfl
    have hksplit : (clampK k self.size).toNat
        = ((iterO (none : Option FeNode)) ++ [self.isolate]).length + (k - 1).toNat := by
      rw [hcl, hlen1]
      omega
    refine ⟨some (self.set_next x), y, ?_, ?_, hy2, ?_, ?_, ?_, ?_⟩
    · rw [FeNode.split_at, if_neg hk1, if_neg hk2]
      split
      · rename_i p2 heqp
        rw [hp] at heqp
        cases heqp
      · split
        · rename_i nx2 heqn
          rw [hn] at heqn
          injection heqn with heqn2
          subst heqn2
          rw [heq]
        · rename_i heqn
          rw [hn] at heqn
          cases heqn
    · rw [sizeOkO]
      exact sizeOk_set_next hs hx2
    · have hRHS : List.take (clampK k self.size).toNat self.iterF
          = ((iterO (none : Option FeNode)) ++ [self.isolate])
            ++ List.take (k - 1).toNat nx.iterF := by
        rw [iterF_eq, hp, hn, iterO_some, hksplit, List.take_append]
      rw [hRHS, iterO_some, iter_set_next, hp, htake, hcln]
    · have hRHS : List.drop (clampK k self.size).toNat self.iterF
          = List.drop (k - 1).toNat nx.iterF := by
        rw [iterF_eq, hp, hn, iterO_some, hksplit, List.drop_append]
      rw [hRHS, hdrop, hcln]
    · rw [hcl]
      constructor
      · intro h; cases h
      · intro h; exfalso; omega
    · rw [hcl]
      rw [hcln] at hyiff
      rw [hyiff]
      omega
  -- case 9: prev absent, next present, inner none (impossible)
  · intro self k hk1 hk2 hp nx hn heq IH hs
    have hsn := sizeOkO_next hs
    rw [hn, sizeOkO] at hsn
    obtain ⟨x2, y2, heq2, -⟩ := IH hsn
    rw [heq] at heq2
    cases heq2
  -- case 10: both children absent with 0 < k < size (impossible under sizeOk)
  · intro self k hk1 hk2 hp hn hs
    exfalso
    have hr := sizeOk_root hs
    rw [hp, sizeO_none, hn, sizeO_none] at hr
    omega

/-! ### Claims C1, C3, C4, C7 -/

/-- Claim C1: size additivity — after construction, `copy`,
`push_back`/`push_front`, `set_prev`/`set_next`, `isolate` and `split_at`,
every node of every tree involved satisfies
`size = size(_prev) + size(_next) + 1` (absent child = 0), provided the
inputs did. -/
theorem size_additivity :
    (∀ t r : Nat, sizeOkF (.mk t r 1 none none .base) = true) ∧
    (∀ (t r : Nat) (s : String), sizeOkF (.mk t r 1 none none (.text s)) = true) ∧
    (∀ (t r : Nat) (tn : String) (prop : List (String × Option String))
      (i : Option FeNode), sizeOkO i = true →
        sizeOkF (.mk t r 1 none none (.tag tn prop i)) = true) ∧
    (∀ self : FeNode, sizeOkF self = true → sizeOkF self.copy = true) ∧
    (∀ (self : FeNode) (x : Option FeNode), sizeOkF self = true →
      sizeOkO x = true → sizeOkF (self.push_back x) = true) ∧
    (∀ (self : FeNode) (x : Option FeNode), sizeOkF self = true →
      sizeOkO x = true → sizeOkF (self.push_front x) = true) ∧
    (∀ (self : FeNode) (x : Option FeNode), sizeOkF self = true →
      sizeOkO x = true → sizeOkF (self.set_prev x) = true) ∧
    (∀ (self : FeNode) (x : Option FeNode), sizeOkF self = true →
      sizeOkO x = true → sizeOkF (self.set_next x) = true) ∧
    (∀ self : FeNode, sizeOkF self = true → sizeOkF self.isolate = true) ∧
    (∀ (self : FeNode) (k : Int) (x y : Option FeNode), sizeOkF self = true →
      self.split_at k = some (x, y) → sizeOkO x = true ∧ sizeOkO y = true) := by
  refine ⟨?_, ?_, ?_, fun self h => h, sizeOk_push.1, sizeOk_push.2,
    fun self x hs hx => sizeOk_set_prev hs hx,
    fun self x hs hx => sizeOk_set_next hs hx,
    fun self hs => sizeOk_isolate hs, ?_⟩
  · intro t r
    rfl
  · intro t r s
    rfl
  · intro t r tn prop i hi
    simp [sizeOkF, sizeO, sizeOkO, sizeOkP, hi]
  · intro self k x y hs heq
    obtain ⟨x2, y2, heq2, hx2, hy2, -⟩ := split_master self k hs
    rw [heq] at heq2
    injection heq2 with heq3
    injection heq3 with hx3 hy3
    subst hx3
    subst hy3
    exact ⟨hx2, hy2⟩

/-- Witness for C1 at concrete inputs: a two-node tree is `sizeOk` and
pushing a fresh text node into it preserves the invariant. -/
theorem size_additivity_witness :
    sizeOkF (FeNode.mk 0 5 2 none
      (some (FeNode.mk 0 7 1 none none (.text "b"))) (.text "a")) = true ∧
    sizeOkO (some (FeNode.mk 0 3 1 none none (.text "c"))) = true ∧
    sizeOkF ((FeNode.mk 0 5 2 none
      (some (FeNode.mk 0 7 1 none none (.text "b"))) (.text "a")).push_back
        (some (FeNode.mk 0 3 1 none none (.text "c")))) = true :=
  ⟨by decide, by decide,
    size_additivity.2.2.2.2.1 _ _ (by decide) (by decide)⟩

/-- The caller-side combination of the two halves returned by `split_at`:
an absent half is the empty sequence, otherwise the present prefix
`push_back`s the suffix (`FeNodeTest.test_test1`, `nodetree.py` 348–349,
uses exactly `w1 + w2`). -/
def concatParts : Option FeNode → Option FeNode → Option FeNode
  | none, s => s
  | some p, s => some (p.push_back s)

theorem strO_concatParts (x y : Option FeNode) :
    strO (concatParts x y) = strO x ++ strO y := by
  cases x with
  | none =>
    rw [concatParts, strO_none, String.empty_append]
  | some p =>
    rw [concatParts, strO_some, strO_some, str_push.1]

/-- Claim C3: split/concatenate round-trip — for `0 ≤ k ≤ size(n)`,
splitting at `k` succeeds and concatenating the two parts (absent part =
empty) stringifies to exactly `str(n)`. -/
theorem split_concat_roundtrip (n : FeNode) (k : Int) (hs : sizeOkF n = true)
    (hk0 : 0 ≤ k) (hk1 : k ≤ (n.size : Int)) :
    ∃ x y, n.split_at k = some (x, y) ∧
      strO (concatParts x y) = n.strF := by
  obtain ⟨x, y, heq, hx, hy, htake, hdrop, -⟩ := split_master n k hs
  refine ⟨x, y, heq, ?_⟩
  rw [strO_concatParts, ← iter_str.2 x, ← iter_str.2 y, htake, hdrop,
    ← join_append, ← List.map_append, List.take_append_drop, iter_str.1]

/-- Witness for C3 at a concrete two-element node and `k = 1`. -/
theorem split_concat_roundtrip_witness :
    sizeOkF (FeNode.mk 0 5 2 none
      (some (FeNode.mk 0 7 1 none none (.text "b"))) (.text "a")) = true ∧
    (0 : Int) ≤ 1 ∧
    (1 : Int) ≤ ((FeNode.mk 0 5 2 none
      (some (FeNode.mk 0 7 1 none none (.text "b"))) (.text "a")).size : Int) ∧
    ∃ x y, (FeNode.mk 0 5 2 none
      (some (FeNode.mk 0 7 1 none none (.text "b"))) (.text "a")).split_at 1
        = some (x, y) ∧
      strO (concatParts x y) = (FeNode.mk 0 5 2 none
        (some (FeNode.mk 0 7 1 none none (.text "b"))) (.text "a")).strF :=
  ⟨by decide, by decide, by decide,
    split_concat_roundtrip _ 1 (by decide) (by decide) (by decide)⟩

theorem clampK_nonneg (k : Int) (s : Nat) : 0 ≤ clampK k s := by
  rw [clampK]; omega

theorem clampK_le (k : Int) (s : Nat) : clampK k s ≤ (s : Int) := by
  rw [clampK]; omega

/-- Claim C4: `split_at` is total and clamps — for every integer `k`
(negative and beyond-size included) it returns, without error, a pair
whose first part holds the first `c` elements and whose second part holds
the remaining `size - c` elements, where `c = min(max(k,0), size)`; a part
with zero elements is returned as `None`. -/
theorem split_total_clamp (n : FeNode) (k : Int) (hs : sizeOkF n = true) :
    ∃ x y, n.split_at k = some (x, y) ∧
      iterO x = n.iterF.take (clampK k n.size).toNat ∧
      iterO y = n.iterF.drop (clampK k n.size).toNat ∧
      (iterO x).length = (clampK k n.size).toNat ∧
      (iterO y).length = n.size - (clampK k n.size).toNat ∧
      (x = none ↔ clampK k n.size = 0) ∧
      (y = none ↔ clampK k n.size = (n.size : Int)) := by
  obtain ⟨x, y, heq, hx, hy, htake, hdrop, hxiff, hyiff⟩ := split_master n k hs
  have hlen := iterF_length_size hs
  have h0 := clampK_nonneg k n.size
  have h1 := clampK_le k n.size
  refine ⟨x, y, heq, htake, hdrop, ?_, ?_, hxiff, hyiff⟩
  · rw [htake, List.length_take, hlen]
    omega
  · rw [hdrop, List.length_drop, hlen]

/-- Witness for C4 on a concrete node with an out-of-range `k = -7`. -/
theorem split_total_clamp_witness :
    sizeOkF (FeNode.mk 0 5 2 none
      (some (FeNode.mk 0 7 1 none none (.text "b"))) (.text "a")) = true ∧
    ∃ x y, (FeNode.mk 0 5 2 none
      (some (FeNode.mk 0 7 1 none none (.text "b"))) (.text "a")).split_at (-7)
        = some (x, y) ∧
      iterO x = (FeNode.mk 0 5 2 none
        (some (FeNode.mk 0 7 1 none none (.text "b"))) (.text "a")).iterF.take
          (clampK (-7) (FeNode.mk 0 5 2 none
        (some (FeNode.mk 0 7 1 none none (.text "b"))) (.text "a")).size).toNat ∧
      iterO y = (FeNode.mk 0 5 2 none
        (some (FeNode.mk 0 7 1 none none (.text "b"))) (.text "a")).iterF.drop
          (clampK (-7) (FeNode.mk 0 5 2 none
        (some (FeNode.mk 0 7 1 none none (.text "b"))) (.text "a")).size).toNat ∧
      (iterO x).length = (clampK (-7) (FeNode.mk 0 5 2 none
        (some (FeNode.mk 0 7 1 none none (.text "b"))) (.text "a")).size).toNat ∧
      (iterO y).length = (FeNode.mk 0 5 2 none
        (some (FeNode.mk 0 7 1 none none (.text "b"))) (.text "a")).size
          - (clampK (-7) (FeNode.mk 0 5 2 none
        (some (FeNode.mk 0 7 1 none none (.text "b"))) (.text "a")).size).toNat ∧
      (x = none ↔ clampK (-7) (FeNode.mk 0 5 2 none
        (some (FeNode.mk 0 7 1 none none (.text "b"))) (.text "a")).size = 0) ∧
      (y = none ↔ clampK (-7) (FeNode.mk 0 5 2 none
        (some (FeNode.mk 0 7 1 none none (.text "b"))) (.text "a")).size
          = ((FeNode.mk 0 5 2 none
        (some (FeNode.mk 0 7 1 none none (.text "b"))) (.text "a")).size : Int)) :=
  ⟨by decide, split_total_clamp _ (-7) (by decide)⟩

/-- Claim C7: self-concatenation safety — `Y.push_back(Y)` yields a node of
size `2 * size(Y)` stringifying to `str(Y) ++ str(Y)`. -/
theorem self_concat (Y : FeNode) (hs : sizeOkF Y = true) :
    (Y.push_back (some Y)).size = 2 * Y.size ∧
    (Y.push_back (some Y)).strF = Y.strF ++ Y.strF := by
  constructor
  · have hres : sizeOkF (Y.push_back (some Y)) = true :=
      sizeOk_push.1 Y (some Y) hs (by rw [sizeOkO]; exact hs)
    rw [size_eq_cnt.1 _ hres, cnt_push.1, cntO_some, ← size_eq_cnt.1 Y hs]
    omega
  · rw [str_push.1, strO_some]

/-- Witness for C7 on a concrete single tag node. -/
theorem self_concat_witness :
    sizeOkF (FeNode.mk 0 4 1 none none
      (.tag "x" [("y", some "1"), ("z", none)] none)) = true ∧
    ((FeNode.mk 0 4 1 none none
      (.tag "x" [("y", some "1"), ("z", none)] none)).push_back
        (some (FeNode.mk 0 4 1 none none
      (.tag "x" [("y", some "1"), ("z", none)] none)))).size
      = 2 * (FeNode.mk 0 4 1 none none
      (.tag "x" [("y", some "1"), ("z", none)] none)).size ∧
    ((FeNode.mk 0 4 1 none none
      (.tag "x" [("y", some "1"), ("z", none)] none)).push_back
        (some (FeNode.mk 0 4 1 none none
      (.tag "x" [("y", some "1"), ("z", none)] none)))).strF
      = (FeNode.mk 0 4 1 none none
      (.tag "x" [("y", some "1"), ("z", none)] none)).strF
        ++ (FeNode.mk 0 4 1 none none
      (.tag "x" [("y", some "1"), ("z", none)] none)).strF :=
  ⟨by decide, self_concat _ (by decide)⟩

/-! ### Claim C8 — tag stringification grammar -/

/-- The open tag exactly as claim C8 words it: the tag name, then for each
attribute in insertion order ` key="escaped(value)"` when a value is
present and ` key` (bare flag) only when the value is `None`. -/
def claimC8OpenTag (tagname : String) (prop : List (String × Option String)) : String :=
  tagname ++ String.join (prop.map (fun kv =>
    match kv.2 with
    | some v => " " ++ kv.1 ++ "=\"" ++ amp_escape v ++ "\""
    | none => " " ++ kv.1))

/-- `str_self` as claim C8 words it: the claimed open tag wrapped in the
kind's brackets. -/
def claimC8StrSelf (nodetype : Nat) (tagname : String)
    (prop : List (String × Option String)) (insideStr : String) : String :=
  if nodetype = 0 then
    "[" ++ claimC8OpenTag tagname prop ++ "]" ++ insideStr ++ "[/" ++ tagname ++ "]"
  else
    "<" ++ claimC8OpenTag tagname prop ++ ">" ++ insideStr ++ "</" ++ tagname ++ ">"

/-- Counterexample to claim C8 as stated: for the Source-kind tag `x` with
attributes `{"self": "u", "y": ""}` the code emits `[x=u y][/x]` — the
`"self"` key becomes an unescaped `=u` glued to the tag name and the empty
(falsy, non-`None`) value becomes a bare flag — while the claim predicts
`[x self="u" y=""][/x]`. -/
theorem tag_str_self_cex :
    strSelf 0 (.tag "x" [("self", some "u"), ("y", some "")] none)
      = "[x=u y][/x]" ∧
    claimC8StrSelf 0 "x" [("self", some "u"), ("y", some "")] ""
      = "[x self=\"u\" y=\"\"][/x]" ∧
    strSelf 0 (.tag "x" [("self", some "u"), ("y", some "")] none)
      ≠ claimC8StrSelf 0 "x" [("self", some "u"), ("y", some "")] "" := by
  refine ⟨by decide, by decide, by decide⟩

/-- The open tag the code actually builds, written independently of the
source's `foldl` as the amended claim words it: the tag name — with
`=value` (raw, unescaped; `None` printed as `None`) appended when a
`"self"` key is in the dict — followed, for each attribute in insertion
order, by ` key="escaped(value)"` when the value is truthy (present and
non-empty) and the key is not `"self"`, by ` key` (bare flag) when the
value is falsy (`None` or the empty string), and by nothing for the
`"self"` key's own truthy entry. -/
def amendedOpenTag (tagname : String) (prop : List (String × Option String)) : String :=
  (match prop.lookup "self" with
    | some v => tagname ++ "=" ++ pyStrOfVal v
    | none => tagname)
  ++ String.join (prop.map (fun kv =>
      match kv.2 with
      | some v =>
        if v = "" then " " ++ kv.1
        else if kv.1 = "self" then ""
        else " " ++ kv.1 ++ "=\"" ++ amp_escape v ++ "\""
      | none => " " ++ kv.1))

/-- `str_self` as the amended claim words it. -/
def amendedStrSelf (nodetype : Nat) (tagname : String)
    (prop : List (String × Option String)) (insideStr : String) : String :=
  if nodetype = 0 then
    "[" ++ amendedOpenTag tagname prop ++ "]" ++ insideStr ++ "[/" ++ tagname ++ "]"
  else
    "<" ++ amendedOpenTag tagname prop ++ ">" ++ insideStr ++ "</" ++ tagname ++ ">"

theorem openTag_step_eq (t : String) (kv : String × Option String) :
    (if pyTruthy kv.2 then
        if kv.1 = "self" then t
        else t ++ " " ++ kv.1 ++ "=\"" ++ amp_escape (pyStrOfVal kv.2) ++ "\""
      else t ++ " " ++ kv.1)
    = t ++ (match kv.2 with
      | some v =>
        if v = "" then " " ++ kv.1
        else if kv.1 = "self" then ""
        else " " ++ kv.1 ++ "=\"" ++ amp_escape v ++ "\""
      | none => " " ++ kv.1) := by
  obtain ⟨key, v⟩ := kv
  cases v with
  | none =>
    simp [pyTruthy, String.append_assoc]
  | some s =>
    by_cases hv : s = ""
    · subst hv
      simp [pyTruthy, String.append_assoc]
    · by_cases hk : key = "self"
      · subst hk
        simp [pyTruthy, hv, String.append_empty]
      · simp [pyTruthy, hv, hk, pyStrOfVal, String.append_assoc]

theorem openTag_foldl_eq (prop : List (String × Option String)) (t : String) :
    prop.foldl
      (fun acc kv =>
        if pyTruthy kv.2 then
          if kv.1 = "self" then acc
          else acc ++ " " ++ kv.1 ++ "=\"" ++ amp_escape (pyStrOfVal kv.2) ++ "\""
        else acc ++ " " ++ kv.1) t
    = t ++ String.join (prop.map (fun kv =>
        match kv.2 with
        | some v =>
          if v = "" then " " ++ kv.1
          else if kv.1 = "self" then ""
          else " " ++ kv.1 ++ "=\"" ++ amp_escape v ++ "\""
        | none => " " ++ kv.1)) := by
  induction prop generalizing t with
  | nil => simp [String.join]
  | cons kv rest ih =>
    rw [List.foldl_cons, ih, openTag_step_eq, List.map_cons, join_cons,
      String.append_assoc]

theorem openTagOf_eq_amended (tagname : String)
    (prop : List (String × Option String)) :
    openTagOf tagname prop = amendedOpenTag tagname prop := by
  rw [openTagOf, amendedOpenTag, openTag_foldl_eq]

/-- Claim C8 amended: for every `FeTagNode`, `str_self` is the amended open
tag — tag name with a raw `=value` for a `"self"` key, then per-attribute
pieces in insertion order, where a truthy value is escaped and quoted
(except under the key `"self"`) and a falsy value (`None` or `""`) gives a
bare flag — wrapped as `<openTag>INSIDE</tagName>` for the Target kind and
`[openTag]INSIDE[/tagName]` for the Source kind, with `INSIDE` the
stringification of `inside` (empty when absent). -/
theorem tag_str_self_amended (nodetype : Nat) (tagname : String)
    (prop : List (String × Option String)) (inside : Option FeNode) :
    strSelf nodetype (.tag tagname prop inside)
      = amendedStrSelf nodetype tagname prop (strO inside) := by
  rw [strSelf, openTagOf_eq_amended, wrapTag, amendedStrSelf]
  by_cases h : nodetype = 0
  · simp [h]
  · simp [h]

/-! ### Claim C6 — the heap model

Python nodes are mutable objects; `copy` flips `_copied` flags on both
objects, and `push_copy` replaces children of an existing object by
fresh clones.  To settle the persistence claim we model the object store
explicitly: a `Heap` is a list of objects addressed by position, each
operation is a function `Heap → Option (result × Heap)` (`none` = a
Python exception or fuel exhaustion for the recursive ones), and
`denoteA` reads off the pure tree value denoted by an address.  Claim C6
is then: every operation of the API preserves the denotation of every
address that had one, so the observable value (the denoted tree, hence
its stringification and its `size` field) of any node held by a caller —
in particular of `X` after `Xc = X.copy()` is spliced and concatenated —
never changes; and the stringification operation itself returns exactly
the `strF` of the denotation. -/

abbrev Addr := Nat

inductive HPayload : Type where
  | base
  | text (s : String)
  | tag (tagname : String) (prop : List (String × Option String)) (inside : Option Addr)
  deriving DecidableEq

/-- One Python node object: `nodetype`, `_rand`, `size`, `_copied`,
`_prev`, `_next` and the subclass payload, with children as addresses. -/
structure HObj : Type where
  nodetype : Nat
  rand : Nat
  hsize : Nat
  copied : Bool
  prev : Option Addr
  next : Option Addr
  payload : HPayload
  deriving DecidableEq

abbrev Heap := List HObj

/-- `FeNode.copy` (`nodetree.py` 48–62 with subclass overrides): mark the
receiver copied, allocate one clone (same fields, also marked copied). -/
def copyH (h : Heap) (a : Addr) : Option (Addr × Heap) := do
  let o ← h[a]?
  let h1 := h.set a { o with copied := true }
  pure (h1.length, h1 ++ [{ o with copied := true }])

/-- `FeTagNode.push_copy`'s extra step (`nodetree.py` 283–287): clone a
present `_inside` when the copied flag is set. -/
def pushCopyInside (h : Heap) (a : Addr) : Option Heap := do
  let o ← h[a]?
  match o.payload with
  | .tag nm pr (some i) =>
    if o.copied then do
      let (i2, h1) ← copyH h i
      let o1 ← h1[a]?
      pure (h1.set a { o1 with payload := .tag nm pr (some i2) })
    else pure h
  | _ => pure h

/-- `if self._prev: self._prev = self._prev.copy()` (`nodetree.py` 79–80). -/
def pushCopyPrev (h : Heap) (a : Addr) : Option Heap := do
  let o ← h[a]?
  match o.prev with
  | some p => do
      let (p2, h1) ← copyH h p
      let o1 ← h1[a]?
      pure (h1.set a { o1 with prev := some p2 })
  | none => pure h

/-- `if self._next: self._next = self._next.copy()` (`nodetree.py` 81–82). -/
def pushCopyNext (h : Heap) (a : Addr) : Option Heap := do
  let o ← h[a]?
  match o.next with
  | some n => do
      let (n2, h1) ← copyH h n
      let o1 ← h1[a]?
      pure (h1.set a { o1 with next := some n2 })
  | none => pure h

/-- Clear the copied flag (`nodetree.py` 83). -/
def clearCopied (h : Heap) (a : Addr) : Option Heap := do
  let o ← h[a]?
  pure (h.set a { o with copied := false })

/-- `push_copy` (`nodetree.py` 75–83, tag override 283–287): the tag
override clones `_inside` first, then the base method returns early when
the flag is clear, else clones both children and clears the flag. -/
def pushCopyH (h : Heap) (a : Addr) : Option Heap := do
  let h1 ← pushCopyInside h a
  let o ← h1[a]?
  if !o.copied then pure h1
  else do
    let h2 ← pushCopyPrev h1 a
    let h3 ← pushCopyNext h2 a
    clearCopied h3 a

/-- `pull` (`nodetree.py` 85–94): recompute the stored size from the
children's stored sizes. -/
def pullH (h : Heap) (a : Addr) : Option Heap := do
  let o ← h[a]?
  let ps ← match o.prev with
    | some p => do
        let po ← h[p]?
        pure po.hsize
    | none => pure 0
  let ns ← match o.next with
    | some n => do
        let no ← h[n]?
        pure no.hsize
    | none => pure 0
  pure (h.set a { o with hsize := 1 + ps + ns })

/-- `get_prev` (`nodetree.py` 96–99). -/
def getPrevH (h : Heap) (a : Addr) : Option (Option Addr × Heap) := do
  let h1 ← pushCopyH h a
  let o ← h1[a]?
  pure (o.prev, h1)

/-- `get_next` (`nodetree.py` 100–103). -/
def getNextH (h : Heap) (a : Addr) : Option (Option Addr × Heap) := do
  let h1 ← pushCopyH h a
  let o ← h1[a]?
  pure (o.next, h1)

/-- `get_inside` (`nodetree.py` 289–297); only called on tag nodes. -/
def getInsideH (h : Heap) (a : Addr) : Option (Option Addr × Heap) := do
  let h1 ← pushCopyH h a
  let o ← h1[a]?
  match o.payload with
  | .tag _ _ i => pure (i, h1)
  | _ => none

/-- `set_prev` (`nodetree.py` 104–109): copy, overwrite `_prev`, pull. -/
def setPrevH (h : Heap) (a : Addr) (x : Option Addr) : Option (Addr × Heap) := do
  let (y, h1) ← copyH h a
  let o ← h1[y]?
  let h2 := h1.set y { o with prev := x }
  let h3 ← pullH h2 y
  pure (y, h3)

/-- `set_next` (`nodetree.py` 110–115). -/
def setNextH (h : Heap) (a : Addr) (x : Option Addr) : Option (Addr × Heap) := do
  let (y, h1) ← copyH h a
  let o ← h1[y]?
  let h2 := h1.set y { o with next := x }
  let h3 ← pullH h2 y
  pure (y, h3)

/-- `isolate` (`nodetree.py` 64–73): copy, drop both children, pull. -/
def isolateH (h : Heap) (a : Addr) : Option (Addr × Heap) := do
  let (y, h1) ← copyH h a
  let o ← h1[y]?
  let h2 := h1.set y { o with prev := none, next := none }
  let h3 ← pullH h2 y
  pure (y, h3)

mutual

/-- `push_back` (`nodetree.py` 149–157) on the heap, with fuel for the
recursion. -/
def pushBackH : Nat → Heap → Addr → Option Addr → Option (Addr × Heap)
  | 0, _, _, _ => none
  | fuel + 1, h, a, x => do
    let o ← h[a]?
    let swap ← match x with
      | some xa => do
          let xo ← h[xa]?
          pure (decide (xo.rand < o.rand))
      | none => pure false
    if swap then
      match x with
      | some xa => pushFrontH fuel h xa (some a)
      | none => none
    else
      match o.next with
      | none => setNextH h a x
      | some _ => do
          let (n?, h1) ← getNextH h a
          match n? with
          | some n => do
              let (r, h2) ← pushBackH fuel h1 n x
              setNextH h2 a (some r)
          | none => none

/-- `push_front` (`nodetree.py` 159–167) on the heap. -/
def pushFrontH : Nat → Heap → Addr → Option Addr → Option (Addr × Heap)
  | 0, _, _, _ => none
  | fuel + 1, h, a, x => do
    let o ← h[a]?
    let swap ← match x with
      | some xa => do
          let xo ← h[xa]?
          pure (decide (xo.rand < o.rand))
      | none => pure false
    if swap then
      match x with
      | some xa => pushBackH fuel h xa (some a)
      | none => none
    else
      match o.prev with
      | none => setPrevH h a x
      | some _ => do
          let (p?, h1) ← getPrevH h a
          match p? with
          | some p => do
              let (r, h2) ← pushFrontH fuel h1 p x
              setPrevH h2 a (some r)
          | none => none

end

/-- `split_at` (`nodetree.py` 181–199) on the heap. -/
def splitAtH : Nat → Heap → Addr → Int → Option ((Option Addr × Option Addr) × Heap)
  | 0, _, _, _ => none
  | fuel + 1, h, a, k => do
    let o ← h[a]?
    if k ≤ 0 then do
      let (c, h1) ← copyH h a
      pure ((none, some c), h1)
    else if (o.hsize : Int) ≤ k then do
      let (c, h1) ← copyH h a
      pure ((some c, none), h1)
    else do
      let goPrev ← match o.prev with
        | some p => do
            let po ← h[p]?
            pure (decide (k ≤ (po.hsize : Int)))
        | none => pure false
      if goPrev then do
        let (p?, h1) ← getPrevH h a
        match p? with
        | some p => do
            let ((x, y), h2) ← splitAtH fuel h1 p k
            let (c, h3) ← setPrevH h2 a y
            pure ((x, some c), h3)
        | none => none
      else do
        let lt ← match o.prev with
          | some p => do
              let po ← h[p]?
              pure po.hsize
          | none => pure 0
        let (n?, h1) ← getNextH h a
        match n? with
        | some n => do
            let ((x, y), h2) ← splitAtH fuel h1 n (k - (lt : Int) - 1)
            let (c, h3) ← setNextH h2 a x
            pure ((some c, y), h3)
        | none => none

mutual

/-- `__str__` (`nodetree.py` 134–137) on the heap:
`str(get_prev() or "") + str_self() + str(get_next() or "")`, evaluated
left to right with its heap effects. -/
def strHA : Nat → Heap → Addr → Option (String × Heap)
  | 0, _, _ => none
  | fuel + 1, h, a => do
    let (p?, h1) ← getPrevH h a
    let (sp, h2) ← strHO fuel h1 p?
    let (ss, h3) ← strSelfH fuel h2 a
    let (n?, h4) ← getNextH h3 a
    let (sn, h5) ← strHO fuel h4 n?
    pure (sp ++ ss ++ sn, h5)

/-- `str(child or "")` over an optional address. -/
def strHO : Nat → Heap → Option Addr → Option (String × Heap)
  | _, h, none => pure ("", h)
  | fuel, h, some a => strHA fuel h a

/-- `str_self` of each node class on the heap (`nodetree.py` 129–132,
215–218, 299–314); the tag case reads `get_inside()` and stringifies it. -/
def strSelfH : Nat → Heap → Addr → Option (String × Heap)
  | fuel, h, a => do
    let o ← h[a]?
    match o.payload with
    | .base => pure ("", h)
    | .text s => pure (amp_escape s, h)
    | .tag nm pr _ => do
        let (i?, h1) ← getInsideH h a
        let (si, h2) ← strHO fuel h1 i?
        pure (wrapTag o.nodetype (openTagOf nm pr) si nm, h2)

end

mutual

/-- The pure tree denoted by an address: every field of the object except
the `_copied` flag, with children denoted recursively.  `none` when fuel
runs out, an address dangles, or the reference structure is cyclic. -/
def denoteA : Nat → Heap → Addr → Option FeNode
  | 0, _, _ => none
  | fuel + 1, h, a =>
    match h[a]? with
    | none => none
    | some o =>
      match denoteO fuel h o.prev, denoteO fuel h o.next,
          denotePay fuel h o.payload with
      | some tp, some tn, some pay =>
          some (.mk o.nodetype o.rand o.hsize tp tn pay)
      | _, _, _ => none

/-- Denotation of an optional child address. -/
def denoteO : Nat → Heap → Option Addr → Option (Option FeNode)
  | _, _, none => some none
  | fuel, h, some a => (denoteA fuel h a).map some

/-- Denotation of a payload. -/
def denotePay : Nat → Heap → HPayload → Option FePayload
  | _, _, .base => some .base
  | _, _, .text s => some (.text s)
  | fuel, h, .tag nm pr i => (denoteO fuel h i).map (.tag nm pr)

end

/-- Forget the `_copied` flag: the observable view of one object. -/
def eraseCp (o : HObj) : HObj := { o with copied := false }

/-- `h'` sees every object of `h` with the same observable view
(the flag may differ, and `h'` may hold more objects). -/
def heapAgree (h h' : Heap) : Prop :=
  ∀ (b : Addr) (o : HObj), h[b]? = some o → ∃ o', h'[b]? = some o' ∧ eraseCp o' = eraseCp o

theorem eraseCp_fields {o o' : HObj} (h : eraseCp o' = eraseCp o) :
    o'.nodetype = o.nodetype ∧ o'.rand = o.rand ∧ o'.hsize = o.hsize ∧
      o'.prev = o.prev ∧ o'.next = o.next ∧ o'.payload = o.payload := by
  cases o
  cases o'
  injection h with h1 h2 h3 h4 h5 h6 h7
  exact ⟨h1, h2, h3, h5, h6, h7⟩

theorem heapAgree_refl (h : Heap) : heapAgree h h :=
  fun _ o hb => ⟨o, hb, rfl⟩

theorem heapAgree_trans {h1 h2 h3 : Heap} (a1 : heapAgree h1 h2)
    (a2 : heapAgree h2 h3) : heapAgree h1 h3 := by
  intro b o hb
  obtain ⟨o2, hb2, hv2⟩ := a1 b o hb
  obtain ⟨o3, hb3, hv3⟩ := a2 b o2 hb2
  exact ⟨o3, hb3, hv3.trans hv2⟩

theorem heapAgree_set_flag {h : Heap} {a : Addr} {o : HObj} (ha : h[a]? = some o)
    (c : Bool) : heapAgree h (h.set a { o with copied := c }) := by
  intro b ob hb
  by_cases hab : a = b
  · subst hab
    rw [ha] at hb
    injection hb with hb2
    subst hb2
    have hlt : a < h.length := (List.getElem?_eq_some.mp ha).1
    exact ⟨{ o with copied := c }, List.getElem?_set_self hlt, rfl⟩
  · exact ⟨ob, by rw [List.getElem?_set_ne hab]; exact hb, rfl⟩

theorem heapAgree_append (h h2 : Heap) : heapAgree h (h ++ h2) := by
  intro b ob hb
  have hlt : b < h.length := (List.getElem?_eq_some.mp hb).1
  exact ⟨ob, by rw [List.getElem?_append_left hlt]; exact hb, rfl⟩

theorem heapAgree_set_outside {h h1 : Heap} (hag : heapAgree h h1) {y : Addr}
    (hy : ¬ y < h.length) (x : HObj) : heapAgree h (h1.set y x) := by
  intro b ob hb
  have hlt : b < h.length := (List.getElem?_eq_some.mp hb).1
  obtain ⟨o1, hb1, hv1⟩ := hag b ob hb
  have hby : y ≠ b := fun hEq => hy (hEq ▸ hlt)
  exact ⟨o1, by rw [List.getElem?_set_ne hby]; exact hb1, hv1⟩

/-- Denotation is invariant under heap extensions that keep every existing
object's observable view. -/
theorem denoteA_ext : ∀ (f : Nat) (h h2 : Heap), heapAgree h h2 →
    ∀ (a : Addr) (t : FeNode), denoteA f h a = some t → denoteA f h2 a = some t := by
  intro f
  induction f with
  | zero =>
    intro h h2 hag a t hd
    rw [denoteA] at hd
    cases hd
  | succ f ih =>
    intro h h2 hag a t hd
    have ihO : ∀ (x : Option Addr) (t0 : Option FeNode),
        denoteO f h x = some t0 → denoteO f h2 x = some t0 := by
      intro x t0 hx
      cases x with
      | none =>
        rw [denoteO] at hx ⊢
        exact hx
      | some b =>
        rw [denoteO] at hx ⊢
        cases hb : denoteA f h b with
        | none => rw [hb] at hx; cases hx
        | some tb =>
          rw [hb] at hx
          rw [ih h h2 hag b tb hb]
          exact hx
    have ihP : ∀ (pl : HPayload) (tp : FePayload),
        denotePay f h pl = some tp → denotePay f h2 pl = some tp := by
      intro pl tp hp
      cases pl with
      | base => rw [denotePay] at hp ⊢; exact hp
      | text s => rw [denotePay] at hp ⊢; exact hp
      | tag nm pr i =>
        rw [denotePay] at hp ⊢
        cases hi : denoteO f h i with
        | none => rw [hi] at hp; cases hp
        | some ti =>
          rw [hi] at hp
          rw [ihO i ti hi]
          exact hp
    rw [denoteA] at hd ⊢
    cases hoa : h[a]? with
    | none =>
      simp only [hoa] at hd
      cases hd
    | some o =>
      simp only [hoa] at hd
      obtain ⟨o2, ho2, hv⟩ := hag a o hoa
      obtain ⟨f1, f2, f3, f4, f5, f6⟩ := eraseCp_fields hv
      simp only [ho2, f1, f2, f3, f4, f5, f6]
      cases hp : denoteO f h o.prev with
      | none =>
        simp only [hp] at hd
        cases hd
      | some tp =>
        simp only [hp] at hd
        rw [ihO _ _ hp]
        cases hn : denoteO f h o.next with
        | none =>
          simp only [hn] at hd
          cases hd
        | some tn =>
          simp only [hn] at hd
          rw [ihO _ _ hn]
          cases hpl : denotePay f h o.payload with
          | none =>
            simp only [hpl] at hd
            cases hd
          | some tpl =>
            simp only [hpl] at hd
            rw [ihP _ _ hpl]
            exact hd

/-- Denotation preservation: every address denotable in `h` keeps its
denotation (at the same fuel) in `h2`. -/
def Pres (h h2 : Heap) : Prop :=
  ∀ (f : Nat) (a : Addr) (t : FeNode), denoteA f h a = some t → denoteA f h2 a = some t

theorem Pres_refl (h : Heap) : Pres h h := fun _ _ _ hd => hd

theorem Pres_trans {h1 h2 h3 : Heap} (p1 : Pres h1 h2) (p2 : Pres h2 h3) :
    Pres h1 h3 := fun f a t hd => p2 f a t (p1 f a t hd)

theorem Pres_of_agree {h h2 : Heap} (hag : heapAgree h h2) : Pres h h2 :=
  fun f a t hd => denoteA_ext f h h2 hag a t hd

/-- Two addresses holding view-equal objects denote the same tree. -/
theorem denoteA_congr_obj {h : Heap} {b1 b2 : Addr} {o1 o2 : HObj}
    (hb1 : h[b1]? = some o1) (hb2 : h[b2]? = some o2)
    (hv : eraseCp o1 = eraseCp o2) :
    ∀ f, denoteA f h b1 = denoteA f h b2 := by
  intro f
  cases f with
  | zero => rw [denoteA, denoteA]
  | succ f =>
    obtain ⟨f1, f2, f3, f4, f5, f6⟩ := eraseCp_fields hv
    rw [denoteA, denoteA]
    simp only [hb1, hb2, f1, f2, f3, f4, f5, f6]

/-- `a` is one of its own children. -/
def selfChild (o : HObj) (a : Addr) : Prop :=
  o.prev = some a ∨ o.next = some a ∨
    ∃ nm pr, o.payload = .tag nm pr (some a)

/-- A self-referential object has no denotation (the fuel always runs
out), matching the fact that Python stringification or iteration of such
an object would never terminate. -/
theorem denoteA_selfloop {h : Heap} {a : Addr} {o : HObj} (ha : h[a]? = some o)
    (hc : selfChild o a) : ∀ f, denoteA f h a = none := by
  intro f
  induction f with
  | zero => rw [denoteA]
  | succ f ih =>
    rw [denoteA]
    simp only [ha]
    have hnone : denoteO f h (some a) = none := by
      rw [denoteO, ih]
      rfl
    rcases hc with hc | hc | ⟨nm, pr, hc⟩
    · cases h2 : denoteO f h o.next <;> cases h3 : denotePay f h o.payload <;>
        simp [hc, hnone, h2, h3]
    · cases h1 : denoteO f h o.prev <;> cases h3 : denotePay f h o.payload <;>
        simp [hc, hnone, h1, h3]
    · have hpl : denotePay f h o.payload = none := by
        rw [hc, denotePay, hnone]
        rfl
      cases h1 : denoteO f h o.prev <;> cases h2 : denoteO f h o.next <;>
        simp [hpl, hnone, h1, h2]

/-- An acceptable change of one child slot when object `a` is rewritten:
either the slot is untouched, or it is redirected from `b` to a fresh
`b' ≠ a` holding a view-equal copy of `b`'s object. -/
def childOk (h : Heap) (a : Addr) (c c' : Option Addr) : Prop :=
  c = c' ∨ ∃ b b' ob ob', c = some b ∧ c' = some b' ∧ b' ≠ a ∧
    h[b]? = some ob ∧ h[b']? = some ob' ∧ eraseCp ob' = eraseCp ob

/-- An acceptable payload change: untouched, or a tag whose `inside` slot
changed acceptably. -/
def payOk (h : Heap) (a : Addr) (pl pl' : HPayload) : Prop :=
  pl = pl' ∨ ∃ nm pr i i', pl = .tag nm pr i ∧ pl' = .tag nm pr i' ∧
    childOk h a i i'

/-- Master rewiring lemma: overwriting `a`'s object with one that has the
same scalar fields and acceptably-changed children preserves every
denotation.  This is the `push_copy` step: a child is replaced by a fresh
view-equal clone. -/
theorem denoteA_set_rewire {h : Heap} {a : Addr} {o o2 : HObj}
    (ha : h[a]? = some o)
    (hs1 : o2.nodetype = o.nodetype) (hs2 : o2.rand = o.rand)
    (hs3 : o2.hsize = o.hsize)
    (hcp : childOk h a o.prev o2.prev)
    (hcn : childOk h a o.next o2.next)
    (hcy : payOk h a o.payload o2.payload) :
    Pres h (h.set a o2) := by
  intro f
  induction f with
  | zero =>
    intro b t hd
    rw [denoteA] at hd
    cases hd
  | succ f ih =>
    intro b t hd
    have ihO : ∀ (x : Option Addr) (t0 : Option FeNode),
        denoteO f h x = some t0 → denoteO f (h.set a o2) x = some t0 := by
      intro x t0 hx
      cases x with
      | none => rw [denoteO] at hx ⊢; exact hx
      | some b2 =>
        rw [denoteO] at hx ⊢
        cases hb2 : denoteA f h b2 with
        | none => rw [hb2] at hx; cases hx
        | some tb =>
          rw [hb2] at hx
          rw [ih b2 tb hb2]
          exact hx
    have ihC : ∀ (c c' : Option Addr) (t0 : Option FeNode), childOk h a c c' →
        c ≠ some a → denoteO f h c = some t0 → denoteO f (h.set a o2) c' = some t0 := by
      intro c c' t0 hok hne hx
      rcases hok with rfl | ⟨b1, b2, ob1, ob2, rfl, rfl, hb2a, hob1, hob2, hv⟩
      · exact ihO c t0 hx
      · rw [denoteO] at hx ⊢
        cases hb1 : denoteA f h b1 with
        | none => rw [hb1] at hx; cases hx
        | some tb =>
          rw [hb1] at hx
          have hb1a : b1 ≠ a := fun hEq => hne (by rw [hEq])
          have e1 : (h.set a o2)[b1]? = some ob1 := by
            rw [List.getElem?_set_ne (fun hEq => hb1a hEq.symm)]
            exact hob1
          have e2 : (h.set a o2)[b2]? = some ob2 := by
            rw [List.getElem?_set_ne (fun hEq => hb2a hEq.symm)]
            exact hob2
          have hcongr := denoteA_congr_obj e2 e1 hv f
          rw [hcongr, ih b1 tb hb1]
          exact hx
    by_cases hba : b = a
    · subst hba
      have hd0 := hd
      rw [denoteA] at hd ⊢
      simp only [ha] at hd
      have hlt : b < h.length := (List.getElem?_eq_some.mp ha).1
      simp only [List.getElem?_set_self hlt, hs1, hs2, hs3]
      have hpne : o.prev ≠ some b := by
        intro hsc
        have hnone := denoteA_selfloop ha (Or.inl hsc) (f + 1)
        rw [hnone] at hd0
        cases hd0
      have hnne : o.next ≠ some b := by
        intro hsc
        have hnone := denoteA_selfloop ha (Or.inr (Or.inl hsc)) (f + 1)
        rw [hnone] at hd0
        cases hd0
      cases hp : denoteO f h o.prev with
      | none => rw [hp] at hd; cases hd
      | some tp =>
        rw [hp] at hd
        rw [ihC o.prev o2.prev tp hcp hpne hp]
        cases hn : denoteO f h o.next with
        | none => rw [hn] at hd; cases hd
        | some tn =>
          rw [hn] at hd
          rw [ihC o.next o2.next tn hcn hnne hn]
          cases hpl : denotePay f h o.payload with
          | none => rw [hpl] at hd; cases hd
          | some tpl =>
            rw [hpl] at hd
            have hplstep : denotePay f (h.set b o2) o2.payload = some tpl := by
              rcases hcy with hhh | ⟨nm, pr, i1, i2, hpl1, hpl2, hok⟩
              · rw [← hhh]
                cases hplc : o.payload with
                | base => rw [hplc] at hpl; rw [denotePay] at hpl ⊢; exact hpl
                | text s => rw [hplc] at hpl; rw [denotePay] at hpl ⊢; exact hpl
                | tag nm pr i =>
                  rw [hplc] at hpl
                  rw [denotePay] at hpl ⊢
                  cases hi : denoteO f h i with
                  | none => rw [hi] at hpl; cases hpl
                  | some ti =>
                    rw [hi] at hpl
                    rw [ihO i ti hi]
                    exact hpl
              · have hine : i1 ≠ some b := by
                  intro hsc
                  have hnone := denoteA_selfloop ha
                    (Or.inr (Or.inr ⟨nm, pr, by rw [hpl1, hsc]⟩)) (f + 1)
                  rw [hnone] at hd0
                  cases hd0
                rw [hpl1, denotePay] at hpl
                rw [hpl2, denotePay]
                cases hi : denoteO f h i1 with
                | none => rw [hi] at hpl; cases hpl
                | some ti =>
                  rw [hi] at hpl
                  rw [ihC i1 i2 ti hok hine hi]
                  exact hpl
            rw [hplstep]
            exact hd
    · rw [denoteA] at hd ⊢
      cases hob : h[b]? with
      | none => rw [hob] at hd; cases hd
      | some ob =>
        simp only [hob] at hd
        simp only [List.getElem?_set_ne (fun hEq => hba hEq.symm), hob]
        cases hp : denoteO f h ob.prev with
        | none => rw [hp] at hd; cases hd
        | some tp =>
          rw [hp] at hd
          rw [ihO _ _ hp]
          cases hn : denoteO f h ob.next with
          | none => rw [hn] at hd; cases hd
          | some tn =>
            rw [hn] at hd
            rw [ihO _ _ hn]
            cases hpl : denotePay f h ob.payload with
            | none => rw [hpl] at hd; cases hd
            | some tpl =>
              rw [hpl] at hd
              have : denotePay f (h.set a o2) ob.payload = some tpl := by
                cases hplc : ob.payload with
                | base => rw [hplc] at hpl; rw [denotePay] at hpl ⊢; exact hpl
                | text s => rw [hplc] at hpl; rw [denotePay] at hpl ⊢; exact hpl
                | tag nm pr i =>
                  rw [hplc] at hpl
                  rw [denotePay] at hpl ⊢
                  cases hi : denoteO f h i with
                  | none => rw [hi] at hpl; cases hpl
                  | some ti =>
                    rw [hi] at hpl
                    rw [ihO i ti hi]
                    exact hpl
              rw [this]
              exact hd

theorem copyH_spec {h : Heap} {a : Addr} {r : Addr} {h2 : Heap}
    (hc : copyH h a = some (r, h2)) :
    ∃ o, h[a]? = some o ∧ r = h.length ∧
      h2 = (h.set a { o with copied := true }) ++ [{ o with copied := true }] ∧
      h2[r]? = some { o with copied := true } ∧ heapAgree h h2 := by
  rw [copyH] at hc
  simp only [Option.bind_eq_bind, Option.bind_eq_some, Option.pure_def,
    Option.some.injEq] at hc
  obtain ⟨o, ho, hr⟩ := hc
  injection hr with hr1 hr2
  have hlen : (h.set a { o with copied := true }).length = h.length :=
    List.length_set h a _
  refine ⟨o, ho, by rw [← hr1, hlen], by rw [← hr2], ?_, ?_⟩
  · rw [← hr2, ← hr1]
    rw [show ((h.set a { o with copied := true }) ++
        [{ o with copied := true }])[(h.set a { o with copied := true }).length]?
        = some { o with copied := true } from List.getElem?_concat_length _ _]
  · rw [← hr2]
    exact heapAgree_trans (heapAgree_set_flag ho true)
      (heapAgree_append _ _)

theorem copyH_pres {h : Heap} {a r : Addr} {h2 : Heap}
    (hc : copyH h a = some (r, h2)) : Pres h h2 := by
  obtain ⟨o, -, -, -, -, hag⟩ := copyH_spec hc
  exact Pres_of_agree hag

theorem pushCopyPrev_pres {h : Heap} {a : Addr} {h2 : Heap}
    (hc : pushCopyPrev h a = some h2) : Pres h h2 := by
  rw [pushCopyPrev] at hc
  simp only [Option.bind_eq_bind, Option.bind_eq_some, Option.pure_def,
    Option.some.injEq] at hc
  obtain ⟨o, ho, hc⟩ := hc
  cases hp : o.prev with
  | none =>
    simp only [hp] at hc
    injection hc with hc
    subst hc
    exact Pres_refl h
  | some p =>
    simp only [hp, Option.bind_eq_bind, Option.bind_eq_some, Option.pure_def,
      Option.some.injEq] at hc
    obtain ⟨⟨p2, h1⟩, hcopy, o1, ho1, hset⟩ := hc
    dsimp only at ho1 hset
    obtain ⟨po, hpo, hp2len, -, hp2obj, hag1⟩ := copyH_spec hcopy
    obtain ⟨o1b, ho1b, hvo1⟩ := hag1 a o ho
    rw [ho1] at ho1b
    injection ho1b with ho1b2
    subst ho1b2
    obtain ⟨-, -, -, g4, -, -⟩ := eraseCp_fields hvo1
    obtain ⟨pf, hpf, hvpf⟩ := hag1 p po hpo
    have halt : a < h.length := (List.getElem?_eq_some.mp ho).1
    have hp2a : p2 ≠ a := by
      intro hEq
      rw [hp2len] at hEq
      rw [hEq] at halt
      exact Nat.lt_irrefl a halt
    have hv2 : eraseCp { po with copied := true } = eraseCp pf := by
      rw [show eraseCp { po with copied := true } = eraseCp po from rfl]
      exact hvpf.symm
    have hchild : childOk h1 a o1.prev (some p2) := by
      rw [g4, hp]
      exact Or.inr ⟨p, p2, pf, { po with copied := true }, rfl, rfl, hp2a,
        hpf, hp2obj, hv2⟩
    have hrew : Pres h1 (h1.set a { o1 with prev := some p2 }) :=
      denoteA_set_rewire ho1 rfl rfl rfl hchild (Or.inl rfl) (Or.inl rfl)
    subst hset
    exact Pres_trans (Pres_of_agree hag1) hrew

theorem pushCopyNext_pres {h : Heap} {a : Addr} {h2 : Heap}
    (hc : pushCopyNext h a = some h2) : Pres h h2 := by
  rw [pushCopyNext] at hc
  simp only [Option.bind_eq_bind, Option.bind_eq_some, Option.pure_def,
    Option.some.injEq] at hc
  obtain ⟨o, ho, hc⟩ := hc
  cases hp : o.next with
  | none =>
    simp only [hp] at hc
    injection hc with hc
    subst hc
    exact Pres_refl h
  | some p =>
    simp only [hp, Option.bind_eq_bind, Option.bind_eq_some, Option.pure_def,
      Option.some.injEq] at hc
    obtain ⟨⟨p2, h1⟩, hcopy, o1, ho1, hset⟩ := hc
    dsimp only at ho1 hset
    obtain ⟨po, hpo, hp2len, -, hp2obj, hag1⟩ := copyH_spec hcopy
    obtain ⟨o1b, ho1b, hvo1⟩ := hag1 a o ho
    rw [ho1] at ho1b
    injection ho1b with ho1b2
    subst ho1b2
    obtain ⟨-, -, -, -, g5, -⟩ := eraseCp_fields hvo1
    obtain ⟨pf, hpf, hvpf⟩ := hag1 p po hpo
    have halt : a < h.length := (List.getElem?_eq_some.mp ho).1
    have hp2a : p2 ≠ a := by
      intro hEq
      rw [hp2len] at hEq
      rw [hEq] at halt
      exact Nat.lt_irrefl a halt
    have hv2 : eraseCp { po with copied := true } = eraseCp pf := by
      rw [show eraseCp { po with copied := true } = eraseCp po from rfl]
      exact hvpf.symm
    have hchild : childOk h1 a o1.next (some p2) := by
      rw [g5, hp]
      exact Or.inr ⟨p, p2, pf, { po with copied := true }, rfl, rfl, hp2a,
        hpf, hp2obj, hv2⟩
    have hrew : Pres h1 (h1.set a { o1 with next := some p2 }) :=
      denoteA_set_rewire ho1 rfl rfl rfl (Or.inl rfl) hchild (Or.inl rfl)
    subst hset
    exact Pres_trans (Pres_of_agree hag1) hrew

theorem pushCopyInside_pres {h : Heap} {a : Addr} {h2 : Heap}
    (hc : pushCopyInside h a = some h2) : Pres h h2 := by
  rw [pushCopyInside] at hc
  simp only [Option.bind_eq_bind, Option.bind_eq_some, Option.pure_def,
    Option.some.injEq] at hc
  obtain ⟨o, ho, hc⟩ := hc
  cases hpl : o.payload with
  | base =>
    simp only [hpl] at hc
    injection hc with hc
    subst hc
    exact Pres_refl h
  | text s =>
    simp only [hpl] at hc
    injection hc with hc
    subst hc
    exact Pres_refl h
  | tag nm pr i =>
    cases hi : i with
    | none =>
      rw [hi] at hpl
      simp only [hpl] at hc
      injection hc with hc
      subst hc
      exact Pres_refl h
    | some ia =>
      rw [hi] at hpl
      simp only [hpl] at hc
      by_cases hcp : o.copied
      · simp only [hcp, if_true, Option.bind_eq_bind, Option.bind_eq_some,
          Option.pure_def, Option.some.injEq] at hc
        obtain ⟨⟨i2, h1⟩, hcopy, o1, ho1, hset⟩ := hc
        dsimp only at ho1 hset
        obtain ⟨io, hio, hi2len, -, hi2obj, hag1⟩ := copyH_spec hcopy
        obtain ⟨o1b, ho1b, hvo1⟩ := hag1 a o ho
        rw [ho1] at ho1b
        injection ho1b with ho1b2
        subst ho1b2
        obtain ⟨-, -, -, -, -, g6⟩ := eraseCp_fields hvo1
        obtain ⟨pf, hpf, hvpf⟩ := hag1 ia io hio
        have halt : a < h.length := (List.getElem?_eq_some.mp ho).1
        have hi2a : i2 ≠ a := by
          intro hEq
          rw [hi2len] at hEq
          rw [hEq] at halt
          exact Nat.lt_irrefl a halt
        have hv2 : eraseCp { io with copied := true } = eraseCp pf := by
          rw [show eraseCp { io with copied := true } = eraseCp io from rfl]
          exact hvpf.symm
        have hpay : payOk h1 a o1.payload (.tag nm pr (some i2)) := by
          rw [g6, hpl]
          refine Or.inr ⟨nm, pr, some ia, some i2, rfl, rfl, ?_⟩
          exact Or.inr ⟨ia, i2, pf, { io with copied := true }, rfl, rfl, hi2a,
            hpf, hi2obj, hv2⟩
        have hrew : Pres h1 (h1.set a { o1 with payload := .tag nm pr (some i2) }) :=
          denoteA_set_rewire ho1 rfl rfl rfl (Or.inl rfl) (Or.inl rfl) hpay
        subst hset
        exact Pres_trans (Pres_of_agree hag1) hrew
      · simp only [hcp, if_false] at hc
        injection hc with hc
        subst hc
        exact Pres_refl h

theorem clearCopied_pres {h : Heap} {a : Addr} {h2 : Heap}
    (hc : clearCopied h a = some h2) : Pres h h2 := by
  rw [clearCopied] at hc
  simp only [Option.bind_eq_bind, Option.bind_eq_some, Option.pure_def,
    Option.some.injEq] at hc
  obtain ⟨o, ho, hset⟩ := hc
  subst hset
  exact Pres_of_agree (heapAgree_set_flag ho false)

theorem pushCopyH_pres {h : Heap} {a : Addr} {h2 : Heap}
    (hc : pushCopyH h a = some h2) : Pres h h2 := by
  rw [pushCopyH] at hc
  simp only [Option.bind_eq_bind, Option.bind_eq_some, Option.pure_def,
    Option.some.injEq] at hc
  obtain ⟨h1, hin, o, ho, hc⟩ := hc
  have p1 : Pres h h1 := pushCopyInside_pres hin
  cases hcpb : o.copied with
  | false =>
    simp only [hcpb, Bool.not_false] at hc
    rw [if_pos trivial] at hc
    injection hc with hc
    subst hc
    exact p1
  | true =>
    simp only [hcpb, Bool.not_true] at hc
    rw [if_neg Bool.false_ne_true] at hc
    simp only [Option.bind_eq_some] at hc
    obtain ⟨hB, hprev, hC, hnext, hclear⟩ := hc
    exact Pres_trans p1 (Pres_trans (pushCopyPrev_pres hprev)
      (Pres_trans (pushCopyNext_pres hnext) (clearCopied_pres hclear)))

theorem getPrevH_pres {h : Heap} {a : Addr} {p : Option Addr} {h2 : Heap}
    (hc : getPrevH h a = some (p, h2)) : Pres h h2 := by
  rw [getPrevH] at hc
  simp only [Option.bind_eq_bind, Option.bind_eq_some, Option.pure_def,
    Option.some.injEq] at hc
  obtain ⟨h1, hpc, o, ho, hpair⟩ := hc
  injection hpair with hp1 hp2
  rw [← hp2]
  exact pushCopyH_pres hpc

theorem getNextH_pres {h : Heap} {a : Addr} {p : Option Addr} {h2 : Heap}
    (hc : getNextH h a = some (p, h2)) : Pres h h2 := by
  rw [getNextH] at hc
  simp only [Option.bind_eq_bind, Option.bind_eq_some, Option.pure_def,
    Option.some.injEq] at hc
  obtain ⟨h1, hpc, o, ho, hpair⟩ := hc
  injection hpair with hp1 hp2
  rw [← hp2]
  exact pushCopyH_pres hpc

theorem getInsideH_pres {h : Heap} {a : Addr} {p : Option Addr} {h2 : Heap}
    (hc : getInsideH h a = some (p, h2)) : Pres h h2 := by
  rw [getInsideH] at hc
  simp only [Option.bind_eq_bind, Option.bind_eq_some] at hc
  obtain ⟨h1, hpc, o, ho, hmatch⟩ := hc
  cases hpl : o.payload with
  | base => rw [hpl] at hmatch; cases hmatch
  | text s => rw [hpl] at hmatch; cases hmatch
  | tag nm pr i =>
    rw [hpl] at hmatch
    simp only [Option.pure_def, Option.some.injEq] at hmatch
    injection hmatch with hm1 hm2
    rw [← hm2]
    exact pushCopyH_pres hpc

theorem pullH_shape {h : Heap} {y : Addr} {h2 : Heap}
    (hc : pullH h y = some h2) : ∃ o2, h2 = h.set y o2 := by
  rw [pullH] at hc
  simp only [Option.bind_eq_bind, Option.bind_eq_some] at hc
  obtain ⟨o, ho, hc⟩ := hc
  cases hp : o.prev with
  | none =>
    cases hn : o.next with
    | none =>
      simp [hp, hn] at hc
      exact ⟨_, by first | exact hc.symm | exact hc⟩
    | some n =>
      simp [hp, hn] at hc
      cases hno : h[n]? with
      | none =>
        simp only [hno] at hc
        cases hc
      | some no =>
        simp only [hno] at hc
        injection hc with hc2
        exact ⟨_, by first | exact hc2.symm | exact hc2⟩
  | some p =>
    cases hn : o.next with
    | none =>
      simp [hp, hn] at hc
      cases hpo : h[p]? with
      | none =>
        simp only [hpo] at hc
        cases hc
      | some po =>
        simp only [hpo] at hc
        injection hc with hc2
        exact ⟨_, by first | exact hc2.symm | exact hc2⟩
    | some n =>
      simp [hp, hn] at hc
      cases hpo : h[p]? with
      | none =>
        simp only [hpo] at hc
        cases hc
      | some po =>
        simp only [hpo] at hc
        cases hno : h[n]? with
        | none =>
          simp only [hno] at hc
          cases hc
        | some no =>
          simp only [hno] at hc
          injection hc with hc2
          exact ⟨_, by first | exact hc2.symm | exact hc2⟩

theorem setPrevH_pres {h : Heap} {a : Addr} {x : Option Addr} {y : Addr}
    {h2 : Heap} (hc : setPrevH h a x = some (y, h2)) : Pres h h2 := by
  rw [setPrevH] at hc
  simp only [Option.bind_eq_bind, Option.bind_eq_some, Option.pure_def,
    Option.some.injEq] at hc
  obtain ⟨⟨y0, h1⟩, hcopy, o, ho, h3, hpull, hpair⟩ := hc
  dsimp only at ho hpull hpair
  injection hpair with hp1 hp2
  obtain ⟨o0, ho0, hylen, -, -, hag1⟩ := copyH_spec hcopy
  have hyout : ¬ y0 < h.length := by
    rw [hylen]
    exact Nat.lt_irrefl _
  obtain ⟨o2, hset2⟩ := pullH_shape hpull
  rw [← hp2, hset2]
  exact Pres_of_agree (heapAgree_set_outside
    (heapAgree_set_outside hag1 hyout _) hyout _)

theorem setNextH_pres {h : Heap} {a : Addr} {x : Option Addr} {y : Addr}
    {h2 : Heap} (hc : setNextH h a x = some (y, h2)) : Pres h h2 := by
  rw [setNextH] at hc
  simp only [Option.bind_eq_bind, Option.bind_eq_some, Option.pure_def,
    Option.some.injEq] at hc
  obtain ⟨⟨y0, h1⟩, hcopy, o, ho, h3, hpull, hpair⟩ := hc
  dsimp only at ho hpull hpair
  injection hpair with hp1 hp2
  obtain ⟨o0, ho0, hylen, -, -, hag1⟩ := copyH_spec hcopy
  have hyout : ¬ y0 < h.length := by
    rw [hylen]
    exact Nat.lt_irrefl _
  obtain ⟨o2, hset2⟩ := pullH_shape hpull
  rw [← hp2, hset2]
  exact Pres_of_agree (heapAgree_set_outside
    (heapAgree_set_outside hag1 hyout _) hyout _)

theorem isolateH_pres {h : Heap} {a : Addr} {y : Addr} {h2 : Heap}
    (hc : isolateH h a = some (y, h2)) : Pres h h2 := by
  rw [isolateH] at hc
  simp only [Option.bind_eq_bind, Option.bind_eq_some, Option.pure_def,
    Option.some.injEq] at hc
  obtain ⟨⟨y0, h1⟩, hcopy, o, ho, h3, hpull, hpair⟩ := hc
  dsimp only at ho hpull hpair
  injection hpair with hp1 hp2
  obtain ⟨o0, ho0, hylen, -, -, hag1⟩ := copyH_spec hcopy
  have hyout : ¬ y0 < h.length := by
    rw [hylen]
    exact Nat.lt_irrefl _
  obtain ⟨o2, hset2⟩ := pullH_shape hpull
  rw [← hp2, hset2]
  exact Pres_of_agree (heapAgree_set_outside
    (heapAgree_set_outside hag1 hyout _) hyout _)

theorem pushH_pres : ∀ fuel : Nat,
    (∀ (h : Heap) (a : Addr) (x : Option Addr) (r : Addr) (h2 : Heap),
      pushBackH fuel h a x = some (r, h2) → Pres h h2) ∧
    (∀ (h : Heap) (a : Addr) (x : Option Addr) (r : Addr) (h2 : Heap),
      pushFrontH fuel h a x = some (r, h2) → Pres h h2) := by
  intro fuel
  induction fuel with
  | zero =>
    constructor <;> intro h a x r h2 hc <;> simp [pushBackH, pushFrontH] at hc
  | succ f ih =>
    constructor
    · intro h a x r h2 hc
      rw [pushBackH.eq_def] at hc
      simp only [Option.bind_eq_bind, Option.bind_eq_some] at hc
      obtain ⟨o, ho, hc⟩ := hc
      cases x with
      | some xa =>
        simp only [Option.bind_eq_bind, Option.bind_eq_some] at hc
        obtain ⟨xo, hxo, sw, hswv, hc⟩ := hc
        cases sw with
        | true =>
          rw [if_pos rfl] at hc
          exact ih.2 h xa (some a) r h2 hc
        | false =>
          rw [if_neg Bool.false_ne_true] at hc
          cases hnx : o.next with
          | none =>
            simp only [hnx] at hc
            exact setNextH_pres hc
          | some n0 =>
            simp only [hnx, Option.bind_eq_bind, Option.bind_eq_some] at hc
            obtain ⟨⟨n?, h1⟩, hget, hc⟩ := hc
            dsimp only at hc
            cases n? with
            | none => cases hc
            | some n =>
              simp only [Option.bind_eq_bind, Option.bind_eq_some] at hc
              obtain ⟨⟨r0, hB⟩, hrec, hset⟩ := hc
              dsimp only at hset
              exact Pres_trans (getNextH_pres hget)
                (Pres_trans (ih.1 h1 n (some xa) r0 hB hrec)
                  (setNextH_pres hset))
      | none =>
        simp only [Option.pure_def, Option.some_bind] at hc
        rw [if_neg Bool.false_ne_true] at hc
        cases hnx : o.next with
        | none =>
          simp only [hnx] at hc
          exact setNextH_pres hc
        | some n0 =>
          simp only [hnx, Option.bind_eq_bind, Option.bind_eq_some] at hc
          obtain ⟨⟨n?, h1⟩, hget, hc⟩ := hc
          dsimp only at hc
          cases n? with
          | none => cases hc
          | some n =>
            simp only [Option.bind_eq_bind, Option.bind_eq_some] at hc
            obtain ⟨⟨r0, hB⟩, hrec, hset⟩ := hc
            dsimp only at hset
            exact Pres_trans (getNextH_pres hget)
              (Pres_trans (ih.1 h1 n none r0 hB hrec)
                (setNextH_pres hset))
    · intro h a x r h2 hc
      rw [pushFrontH.eq_def] at hc
      simp only [Option.bind_eq_bind, Option.bind_eq_some] at hc
      obtain ⟨o, ho, hc⟩ := hc
      cases x with
      | some xa =>
        simp only [Option.bind_eq_bind, Option.bind_eq_some] at hc
        obtain ⟨xo, hxo, sw, hswv, hc⟩ := hc
        cases sw with
        | true =>
          rw [if_pos rfl] at hc
          exact ih.1 h xa (some a) r h2 hc
        | false =>
          rw [if_neg Bool.false_ne_true] at hc
          cases hnx : o.prev with
          | none =>
            simp only [hnx] at hc
            exact setPrevH_pres hc
          | some n0 =>
            simp only [hnx, Option.bind_eq_bind, Option.bind_eq_some] at hc
            obtain ⟨⟨n?, h1⟩, hget, hc⟩ := hc
            dsimp only at hc
            cases n? with
            | none => cases hc
            | some n =>
              simp only [Option.bind_eq_bind, Option.bind_eq_some] at hc
              obtain ⟨⟨r0, hB⟩, hrec, hset⟩ := hc
              dsimp only at hset
              exact Pres_trans (getPrevH_pres hget)
                (Pres_trans (ih.2 h1 n (some xa) r0 hB hrec)
                  (setPrevH_pres hset))
      | none =>
        simp only [Option.pure_def, Option.some_bind] at hc
        rw [if_neg Bool.false_ne_true] at hc
        cases hnx : o.prev with
        | none =>
          simp only [hnx] at hc
          exact setPrevH_pres hc
        | some n0 =>
          simp only [hnx, Option.bind_eq_bind, Option.bind_eq_some] at hc
          obtain ⟨⟨n?, h1⟩, hget, hc⟩ := hc
          dsimp only at hc
          cases n? with
          | none => cases hc
          | some n =>
            simp only [Option.bind_eq_bind, Option.bind_eq_some] at hc
            obtain ⟨⟨r0, hB⟩, hrec, hset⟩ := hc
            dsimp only at hset
            exact Pres_trans (getPrevH_pres hget)
              (Pres_trans (ih.2 h1 n none r0 hB hrec)
                (setPrevH_pres hset))

theorem splitAtH_pres : ∀ (fuel : Nat) (h : Heap) (a : Addr) (k : Int)
    (res : Option Addr × Option Addr) (h2 : Heap),
    splitAtH fuel h a k = some (res, h2) → Pres h h2 := by
  intro fuel
  induction fuel with
  | zero =>
    intro h a k res h2 hc
    simp [splitAtH] at hc
  | succ f ih =>
    intro h a k res h2 hc
    rw [splitAtH] at hc
    simp only [Option.bind_eq_bind, Option.bind_eq_some] at hc
    obtain ⟨o, ho, hc⟩ := hc
    by_cases hk0 : k ≤ 0
    · rw [if_pos hk0] at hc
      simp only [Option.bind_eq_bind, Option.bind_eq_some] at hc
      obtain ⟨⟨c, h1⟩, hcopy, hpure⟩ := hc
      dsimp only at hpure
      injection hpure with hpq
      injection hpq with hq1 hq2
      rw [← hq2]
      exact copyH_pres hcopy
    · rw [if_neg hk0] at hc
      by_cases hks : (o.hsize : Int) ≤ k
      · rw [if_pos hks] at hc
        simp only [Option.bind_eq_bind, Option.bind_eq_some] at hc
        obtain ⟨⟨c, h1⟩, hcopy, hpure⟩ := hc
        dsimp only at hpure
        injection hpure with hpq
        injection hpq with hq1 hq2
        rw [← hq2]
        exact copyH_pres hcopy
      · rw [if_neg hks] at hc
        cases hop : o.prev with
        | some p =>
          simp only [hop, Option.bind_eq_bind, Option.bind_eq_some] at hc
          obtain ⟨po, hpo, gp, hgp, hc⟩ := hc
          cases gp with
          | true =>
            rw [if_pos rfl] at hc
            simp only [Option.bind_eq_bind, Option.bind_eq_some] at hc
            obtain ⟨⟨p?, h1⟩, hget, hc⟩ := hc
            dsimp only at hc
            cases p? with
            | none => cases hc
            | some pp =>
              cases hrec : splitAtH f h1 pp k with
              | none =>
                simp only [hrec] at hc
                cases hc
              | some pr =>
                obtain ⟨⟨x, y⟩, hB⟩ := pr
                simp only [hrec] at hc
                cases hsetp : setPrevH hB a y with
                | none =>
                  simp only [Option.bind_eq_bind, Option.some_bind, hsetp] at hc
                  cases hc
                | some cv =>
                  obtain ⟨c, h3⟩ := cv
                  simp only [hsetp, Option.bind_eq_bind, Option.some_bind, Option.pure_def] at hc
                  have hc2 : ((x, some c), h3) = (res, h2) := by
                    first
                      | exact Option.some.inj hc
                      | exact (Option.some.inj hc.symm)
                  injection hc2 with hq1 hq2
                  rw [← hq2]
                  exact Pres_trans (getPrevH_pres hget)
                    (Pres_trans (ih _ _ _ _ _ hrec) (setPrevH_pres hsetp))
          | false =>
            rw [if_neg Bool.false_ne_true] at hc
            simp only [hop, Option.bind_eq_bind, Option.bind_eq_some] at hc
            obtain ⟨po2, hpo2, ltv, hltv, hc⟩ := hc
            obtain ⟨⟨n?, h1⟩, hget, hc⟩ := hc
            dsimp only at hc
            cases n? with
            | none => cases hc
            | some nn =>
              cases hrec : splitAtH f h1 nn (k - (ltv : Int) - 1) with
              | none =>
                simp only [hrec] at hc
                cases hc
              | some pr =>
                obtain ⟨⟨x, y⟩, hB⟩ := pr
                simp only [hrec] at hc
                cases hsetn : setNextH hB a x with
                | none =>
                  simp only [Option.bind_eq_bind, Option.some_bind, hsetn] at hc
                  cases hc
                | some cv =>
                  obtain ⟨c, h3⟩ := cv
                  simp only [hsetn, Option.bind_eq_bind, Option.some_bind, Option.pure_def] at hc
                  have hc2 : ((some c, y), h3) = (res, h2) := by
                    first
                      | exact Option.some.inj hc
                      | exact (Option.some.inj hc.symm)
                  injection hc2 with hq1 hq2
                  rw [← hq2]
                  exact Pres_trans (getNextH_pres hget)
                    (Pres_trans (ih _ _ _ _ _ hrec) (setNextH_pres hsetn))
        | none =>
          simp only [hop, Option.pure_def, Option.some_bind] at hc
          rw [if_neg Bool.false_ne_true] at hc
          simp only [Option.bind_eq_bind, Option.bind_eq_some] at hc
          obtain ⟨⟨n?, h1⟩, hget, hc⟩ := hc
          dsimp only at hc
          cases n? with
          | none => cases hc
          | some nn =>
            cases hrec : splitAtH f h1 nn (k - ((0 : Nat) : Int) - 1) with
            | none =>
              simp only [hrec] at hc
              cases hc
            | some pr =>
              obtain ⟨⟨x, y⟩, hB⟩ := pr
              simp only [hrec] at hc
              cases hsetn : setNextH hB a x with
              | none =>
                simp only [Option.bind_eq_bind, Option.some_bind, hsetn] at hc
                cases hc
              | some cv =>
                obtain ⟨c, h3⟩ := cv
                simp only [hsetn, Option.bind_eq_bind, Option.some_bind, Option.pure_def] at hc
                have hc2 : ((some c, y), h3) = (res, h2) := by
                  first
                    | exact Option.some.inj hc
                    | exact (Option.some.inj hc.symm)
                injection hc2 with hq1 hq2
                rw [← hq2]
                exact Pres_trans (getNextH_pres hget)
                  (Pres_trans (ih _ _ _ _ _ hrec) (setNextH_pres hsetn))

theorem strHA_pres : ∀ (fuel : Nat) (h : Heap) (a : Addr) (s : String) (h2 : Heap),
    strHA fuel h a = some (s, h2) → Pres h h2 := by
  intro fuel
  induction fuel with
  | zero =>
    intro h a s h2 hc
    simp [strHA] at hc
  | succ f ihA =>
    have ihO : ∀ (h : Heap) (x : Option Addr) (s : String) (h2 : Heap),
        strHO f h x = some (s, h2) → Pres h h2 := by
      intro h x s h2 hc
      cases x with
      | none =>
        rw [strHO] at hc
        simp only [Option.pure_def, Option.some.injEq] at hc
        injection hc with hc1 hc2
        rw [← hc2]
        exact Pres_refl h
      | some b =>
        rw [strHO] at hc
        exact ihA h b s h2 hc
    have ihS : ∀ (h : Heap) (a : Addr) (s : String) (h2 : Heap),
        strSelfH f h a = some (s, h2) → Pres h h2 := by
      intro h a s h2 hc
      rw [strSelfH] at hc
      simp only [Option.bind_eq_bind, Option.bind_eq_some] at hc
      obtain ⟨o, ho, hc⟩ := hc
      cases hpl : o.payload with
      | base =>
        simp only [hpl, Option.pure_def, Option.some.injEq] at hc
        injection hc with hc1 hc2
        rw [← hc2]
        exact Pres_refl h
      | text s0 =>
        simp only [hpl, Option.pure_def, Option.some.injEq] at hc
        injection hc with hc1 hc2
        rw [← hc2]
        exact Pres_refl h
      | tag nm pr i =>
        simp only [hpl, Option.bind_eq_bind, Option.bind_eq_some] at hc
        obtain ⟨⟨i?, h1⟩, hgi, hc⟩ := hc
        dsimp only at hc
        obtain ⟨⟨si, h3⟩, hstr, hpure⟩ := hc
        dsimp only at hpure
        injection hpure with hpq
        injection hpq with hq1 hq2
        rw [← hq2]
        exact Pres_trans (getInsideH_pres hgi) (ihO h1 i? si h3 hstr)
    intro h a s h2 hc
    rw [strHA] at hc
    simp only [Option.bind_eq_bind, Option.bind_eq_some] at hc
    obtain ⟨⟨p?, h1⟩, hgp, hc⟩ := hc
    dsimp only at hc
    obtain ⟨⟨sp, hB⟩, hsp, hc⟩ := hc
    dsimp only at hc
    obtain ⟨⟨ss, hC⟩, hss, hc⟩ := hc
    dsimp only at hc
    obtain ⟨⟨n?, hD⟩, hgn, hc⟩ := hc
    dsimp only at hc
    obtain ⟨⟨sn, hE⟩, hsn, hpure⟩ := hc
    dsimp only at hpure
    injection hpure with hpq
    injection hpq with hq1 hq2
    rw [← hq2]
    exact Pres_trans (getPrevH_pres hgp)
      (Pres_trans (ihO h1 p? sp hB hsp)
        (Pres_trans (ihS hB a ss hC hss)
          (Pres_trans (getNextH_pres hgn) (ihO hD n? sn hE hsn))))

theorem denoteA_inv {f0 : Nat} {h : Heap} {a : Addr} {t : FeNode}
    (hd : denoteA (f0 + 1) h a = some t) :
    ∃ o, h[a]? = some o ∧ o.nodetype = t.nodetype ∧ o.rand = t.rand ∧
      o.hsize = t.size ∧ denoteO f0 h o.prev = some t.prev ∧
      denoteO f0 h o.next = some t.next ∧
      denotePay f0 h o.payload = some t.payload := by
  rw [denoteA] at hd
  cases ho : h[a]? with
  | none =>
    rw [ho] at hd
    cases hd
  | some o =>
    simp only [ho] at hd
    refine ⟨o, rfl, ?_⟩
    cases hp : denoteO f0 h o.prev with
    | none => rw [hp] at hd; cases hd
    | some tp =>
      rw [hp] at hd
      cases hn : denoteO f0 h o.next with
      | none => rw [hn] at hd; cases hd
      | some tn =>
        rw [hn] at hd
        cases hpl : denotePay f0 h o.payload with
        | none => rw [hpl] at hd; cases hd
        | some tpl =>
          rw [hpl] at hd
          injection hd with hd'
          rw [← hd']
          exact ⟨rfl, rfl, rfl, rfl, rfl, rfl⟩

theorem denoteO_inv_some {f : Nat} {h : Heap} {b : Addr} {t0 : Option FeNode}
    (hd : denoteO f h (some b) = some t0) :
    ∃ tb, t0 = some tb ∧ denoteA f h b = some tb := by
  rw [denoteO] at hd
  cases hb : denoteA f h b with
  | none => rw [hb] at hd; cases hd
  | some tb =>
    rw [hb] at hd
    injection hd with hd'
    exact ⟨tb, hd'.symm, rfl⟩

theorem denotePay_inv_tag {f : Nat} {h : Heap} {nm : String}
    {pr : List (String × Option String)} {i : Option Addr} {tpl : FePayload}
    (hd : denotePay f h (.tag nm pr i) = some tpl) :
    ∃ ti, tpl = .tag nm pr ti ∧ denoteO f h i = some ti := by
  rw [denotePay] at hd
  cases hi : denoteO f h i with
  | none => rw [hi] at hd; cases hd
  | some ti =>
    rw [hi] at hd
    injection hd with hd'
    exact ⟨ti, hd'.symm, rfl⟩

theorem getPrevH_spec {h : Heap} {a : Addr} {p : Option Addr} {h1 : Heap}
    {f0 : Nat} {t : FeNode} (hg : getPrevH h a = some (p, h1))
    (hd : denoteA (f0 + 1) h a = some t) :
    denoteO f0 h1 p = some t.prev := by
  have hd1 : denoteA (f0 + 1) h1 a = some t := getPrevH_pres hg _ _ _ hd
  obtain ⟨o1, ho1, -, -, -, hprev, -, -⟩ := denoteA_inv hd1
  rw [getPrevH] at hg
  simp only [Option.bind_eq_bind, Option.bind_eq_some, Option.pure_def,
    Option.some.injEq] at hg
  obtain ⟨hh, hpc, o, ho, hpair⟩ := hg
  injection hpair with hp1 hp2
  rw [← hp2] at ho1 hprev ⊢
  rw [ho] at ho1
  injection ho1 with ho1
  rw [← hp1, ho1]
  exact hprev

theorem getNextH_spec {h : Heap} {a : Addr} {p : Option Addr} {h1 : Heap}
    {f0 : Nat} {t : FeNode} (hg : getNextH h a = some (p, h1))
    (hd : denoteA (f0 + 1) h a = some t) :
    denoteO f0 h1 p = some t.next := by
  have hd1 : denoteA (f0 + 1) h1 a = some t := getNextH_pres hg _ _ _ hd
  obtain ⟨o1, ho1, -, -, -, -, hnext, -⟩ := denoteA_inv hd1
  rw [getNextH] at hg
  simp only [Option.bind_eq_bind, Option.bind_eq_some, Option.pure_def,
    Option.some.injEq] at hg
  obtain ⟨hh, hpc, o, ho, hpair⟩ := hg
  injection hpair with hp1 hp2
  rw [← hp2] at ho1 hnext ⊢
  rw [ho] at ho1
  injection ho1 with ho1
  rw [← hp1, ho1]
  exact hnext

theorem getInsideH_spec {h : Heap} {a : Addr} {i : Option Addr} {h1 : Heap}
    {f0 : Nat} {t : FeNode} {nm : String} {pr : List (String × Option String)}
    {io : Option Addr} {o1 : HObj}
    (hg : getInsideH h a = some (i, h1))
    (hd : denoteA (f0 + 1) h1 a = some t)
    (ho1 : h1[a]? = some o1) (hpl : o1.payload = .tag nm pr io) :
    i = io ∧ ∃ ti, t.payload = .tag nm pr ti ∧ denoteO f0 h1 io = some ti := by
  obtain ⟨o1b, ho1b, -, -, -, -, -, hpay⟩ := denoteA_inv hd
  rw [ho1] at ho1b
  injection ho1b with ho1b
  rw [← ho1b] at hpay
  rw [hpl] at hpay
  obtain ⟨ti, hti, hio⟩ := denotePay_inv_tag hpay
  rw [getInsideH] at hg
  simp only [Option.bind_eq_bind, Option.bind_eq_some] at hg
  obtain ⟨hh, hpc, o, ho, hmatch⟩ := hg
  cases hplo : o.payload with
  | base => rw [hplo] at hmatch; cases hmatch
  | text s0 => rw [hplo] at hmatch; cases hmatch
  | tag nm2 pr2 i2 =>
    rw [hplo] at hmatch
    simp only [Option.pure_def, Option.some.injEq] at hmatch
    injection hmatch with hm1 hm2
    rw [hm2] at ho
    rw [ho] at ho1
    injection ho1 with ho1
    rw [ho1] at hplo
    rw [hplo] at hpl
    injection hpl with e1 e2 e3
    refine ⟨by rw [← hm1, e3], ti, hti, hio⟩

theorem strHO_pres {fuel : Nat} {h : Heap} {x : Option Addr} {s : String}
    {h2 : Heap} (hc : strHO fuel h x = some (s, h2)) : Pres h h2 := by
  cases x with
  | none =>
    rw [strHO] at hc
    simp only [Option.pure_def, Option.some.injEq] at hc
    injection hc with hc1 hc2
    rw [← hc2]
    exact Pres_refl h
  | some b =>
    rw [strHO] at hc
    exact strHA_pres fuel h b s h2 hc

theorem strSelfH_pres {fuel : Nat} {h : Heap} {a : Addr} {s : String}
    {h2 : Heap} (hc : strSelfH fuel h a = some (s, h2)) : Pres h h2 := by
  rw [strSelfH] at hc
  simp only [Option.bind_eq_bind, Option.bind_eq_some] at hc
  obtain ⟨o, ho, hc⟩ := hc
  cases hpl : o.payload with
  | base =>
    simp only [hpl, Option.pure_def, Option.some.injEq] at hc
    injection hc with hc1 hc2
    rw [← hc2]
    exact Pres_refl h
  | text s0 =>
    simp only [hpl, Option.pure_def, Option.some.injEq] at hc
    injection hc with hc1 hc2
    rw [← hc2]
    exact Pres_refl h
  | tag nm pr i =>
    simp only [hpl, Option.bind_eq_bind, Option.bind_eq_some] at hc
    obtain ⟨⟨i?, h1⟩, hgi, hc⟩ := hc
    dsimp only at hc
    obtain ⟨⟨si, h3⟩, hstr, hpure⟩ := hc
    dsimp only at hpure
    injection hpure with hpq
    injection hpq with hq1 hq2
    rw [← hq2]
    exact Pres_trans (getInsideH_pres hgi) (strHO_pres hstr)

theorem denotePay_shape {f : Nat} {h : Heap} {pl : HPayload} {nm : String}
    {pr : List (String × Option String)} {ti : Option FeNode}
    (hd : denotePay f h pl = some (.tag nm pr ti)) :
    ∃ i2, pl = .tag nm pr i2 ∧ denoteO f h i2 = some ti := by
  cases pl with
  | base =>
    rw [denotePay] at hd
    injection hd with hd
    cases hd
  | text s0 =>
    rw [denotePay] at hd
    injection hd with hd
    cases hd
  | tag nm2 pr2 i2 =>
    obtain ⟨ti2, hti2, hio⟩ := denotePay_inv_tag hd
    injection hti2 with e1 e2 e3
    rw [e1, e2]
    exact ⟨i2, rfl, by rw [e3]; exact hio⟩

theorem strH_refines : ∀ (g : Nat) (h : Heap) (a : Addr) (s : String) (h2 : Heap)
    (f : Nat) (t : FeNode), strHA g h a = some (s, h2) →
    denoteA f h a = some t → s = t.strF := by
  intro g
  induction g with
  | zero =>
    intro h a s h2 f t hc hd
    simp [strHA] at hc
  | succ g ihA =>
    have ihO : ∀ (h : Heap) (x : Option Addr) (s : String) (h2 : Heap) (f : Nat)
        (t0 : Option FeNode), strHO g h x = some (s, h2) →
        denoteO f h x = some t0 → s = strO t0 := by
      intro h x s h2 f t0 hc hd
      cases x with
      | none =>
        rw [strHO] at hc
        rw [denoteO] at hd
        injection hd with hd
        simp only [Option.pure_def, Option.some.injEq] at hc
        injection hc with hc1 hc2
        rw [← hc1, ← hd, strO_none]
      | some b =>
        rw [strHO] at hc
        obtain ⟨tb, ht0, hdb⟩ := denoteO_inv_some hd
        rw [ht0, strO_some]
        exact ihA h b s h2 f tb hc hdb
    have ihS : ∀ (h : Heap) (a : Addr) (s : String) (h2 : Heap) (f0 : Nat)
        (t : FeNode), strSelfH g h a = some (s, h2) →
        denoteA (f0 + 1) h a = some t → s = t.ownStr := by
      intro h a s h2 f0 t hc hd
      obtain ⟨o, ho, hnt, hrand, hsz, hprev, hnext, hpay⟩ := denoteA_inv hd
      rw [strSelfH] at hc
      simp only [Option.bind_eq_bind, Option.bind_eq_some] at hc
      obtain ⟨o2, ho2, hc⟩ := hc
      rw [ho] at ho2
      injection ho2 with ho2
      rw [← ho2] at hc
      cases hpl : o.payload with
      | base =>
        simp only [hpl, Option.pure_def, Option.some.injEq] at hc
        injection hc with hc1 hc2
        rw [hpl, denotePay] at hpay
        injection hpay with hpay
        rw [FeNode.ownStr, ← hpay, ← hc1]
        rfl
      | text s0 =>
        simp only [hpl, Option.pure_def, Option.some.injEq] at hc
        injection hc with hc1 hc2
        rw [hpl, denotePay] at hpay
        injection hpay with hpay
        rw [FeNode.ownStr, ← hpay, ← hc1]
        rfl
      | tag nm pr io =>
        simp only [hpl, Option.bind_eq_bind, Option.bind_eq_some] at hc
        obtain ⟨⟨i?, h1⟩, hgi, hc⟩ := hc
        dsimp only at hc
        obtain ⟨⟨si, h3⟩, hstr, hpure⟩ := hc
        dsimp only at hpure
        injection hpure with hpq
        injection hpq with hq1 hq2
        have hd1 : denoteA (f0 + 1) h1 a = some t := getInsideH_pres hgi _ _ _ hd
        obtain ⟨o1, ho1, hnt1, -, -, -, -, hpay1⟩ := denoteA_inv hd1
        rw [hpl, denotePay] at hpay
        cases hio : denoteO f0 h io with
        | none => rw [hio] at hpay; cases hpay
        | some tio =>
          rw [hio] at hpay
          injection hpay with hpay
          obtain ⟨io2, hplo1, hdio2⟩ := denotePay_shape (by rw [hpay1, ← hpay])
          obtain ⟨hieq, ti, hti, hdio⟩ := getInsideH_spec hgi hd1 ho1 hplo1
          have hsi : si = strO ti := by
            refine ihO h1 i? si h3 f0 ti hstr ?_
            rw [hieq]
            exact hdio
          rw [← hq1, FeNode.ownStr, hti, hsi, hnt]
          rfl
    intro h a s h2 f t hc hd
    cases f with
    | zero =>
      rw [denoteA] at hd
      cases hd
    | succ f0 =>
      rw [strHA] at hc
      simp only [Option.bind_eq_bind, Option.bind_eq_some] at hc
      obtain ⟨⟨p?, h1⟩, hgp, hc⟩ := hc
      dsimp only at hc
      obtain ⟨⟨sp, hB⟩, hsp, hc⟩ := hc
      dsimp only at hc
      obtain ⟨⟨ss, hC⟩, hss, hc⟩ := hc
      dsimp only at hc
      obtain ⟨⟨n?, hD⟩, hgn, hc⟩ := hc
      dsimp only at hc
      obtain ⟨⟨sn, hE⟩, hsn, hpure⟩ := hc
      dsimp only at hpure
      injection hpure with hpq
      injection hpq with hq1 hq2
      have hdp : denoteO f0 h1 p? = some t.prev := getPrevH_spec hgp hd
      have hd1 : denoteA (f0 + 1) h1 a = some t := getPrevH_pres hgp _ _ _ hd
      have hsp2 : sp = strO t.prev := ihO h1 p? sp hB f0 t.prev hsp hdp
      have hdB : denoteA (f0 + 1) hB a = some t := strHO_pres hsp _ _ _ hd1
      have hss2 : ss = t.ownStr := ihS hB a ss hC f0 t hss hdB
      have hdC : denoteA (f0 + 1) hC a = some t := strSelfH_pres hss _ _ _ hdB
      have hdn : denoteO f0 hD n? = some t.next := getNextH_spec hgn hdC
      have hsn2 : sn = strO t.next := ihO hD n? sn hE f0 t.next hsn hdn
      rw [← hq1, hsp2, hss2, hsn2, strF_eq]

/-- One public API operation on the heap, performed at any address with any
arguments: the relation holds between the heap before and after a successful
call.  Covers `copy`, the accessors (which mutate through `push_copy`), the
setters, `isolate`, both pushes, `split_at` and `__str__`. -/
inductive OpStep : Heap → Heap → Prop where
  | copy {h : Heap} {a r : Addr} {h2 : Heap} :
      copyH h a = some (r, h2) → OpStep h h2
  | getPrev {h : Heap} {a : Addr} {p : Option Addr} {h2 : Heap} :
      getPrevH h a = some (p, h2) → OpStep h h2
  | getNext {h : Heap} {a : Addr} {p : Option Addr} {h2 : Heap} :
      getNextH h a = some (p, h2) → OpStep h h2
  | getInside {h : Heap} {a : Addr} {p : Option Addr} {h2 : Heap} :
      getInsideH h a = some (p, h2) → OpStep h h2
  | setPrev {h : Heap} {a : Addr} {x : Option Addr} {y : Addr} {h2 : Heap} :
      setPrevH h a x = some (y, h2) → OpStep h h2
  | setNext {h : Heap} {a : Addr} {x : Option Addr} {y : Addr} {h2 : Heap} :
      setNextH h a x = some (y, h2) → OpStep h h2
  | isolate {h : Heap} {a : Addr} {y : Addr} {h2 : Heap} :
      isolateH h a = some (y, h2) → OpStep h h2
  | pushBack {fuel : Nat} {h : Heap} {a : Addr} {x : Option Addr} {r : Addr}
      {h2 : Heap} : pushBackH fuel h a x = some (r, h2) → OpStep h h2
  | pushFront {fuel : Nat} {h : Heap} {a : Addr} {x : Option Addr} {r : Addr}
      {h2 : Heap} : pushFrontH fuel h a x = some (r, h2) → OpStep h h2
  | splitAt {fuel : Nat} {h : Heap} {a : Addr} {k : Int}
      {res : Option Addr × Option Addr} {h2 : Heap} :
      splitAtH fuel h a k = some (res, h2) → OpStep h h2
  | str {fuel : Nat} {h : Heap} {a : Addr} {s : String} {h2 : Heap} :
      strHA fuel h a = some (s, h2) → OpStep h h2

/-- Any finite sequence of successful API operations. -/
inductive OpChain : Heap → Heap → Prop where
  | refl {h : Heap} : OpChain h h
  | step {h h1 h2 : Heap} : OpChain h h1 → OpStep h1 h2 → OpChain h h2

theorem OpStep_pres {h h2 : Heap} (hs : OpStep h h2) : Pres h h2 := by
  cases hs with
  | copy hc => exact copyH_pres hc
  | getPrev hc => exact getPrevH_pres hc
  | getNext hc => exact getNextH_pres hc
  | getInside hc => exact getInsideH_pres hc
  | setPrev hc => exact setPrevH_pres hc
  | setNext hc => exact setNextH_pres hc
  | isolate hc => exact isolateH_pres hc
  | pushBack hc => exact (pushH_pres _).1 _ _ _ _ _ hc
  | pushFront hc => exact (pushH_pres _).2 _ _ _ _ _ hc
  | splitAt hc => exact splitAtH_pres _ _ _ _ _ _ hc
  | str hc => exact strHA_pres _ _ _ _ _ hc

theorem OpChain_pres {h h2 : Heap} (hs : OpChain h h2) : Pres h h2 := by
  induction hs with
  | refl => exact Pres_refl _
  | step hch hst ih => exact Pres_trans ih (OpStep_pres hst)

/-- **C6** (copy isolation / persistence): let the object at address `a` of
heap `h` denote the pure value `t` (so `str(X) = t.strF` and
`size(X) = t.size`).  After *any* sequence of successful API operations —
`copy`, accessors, setters, `isolate`, `push_back`/`push_front`, `split_at`,
`__str__` — performed anywhere on the heap (in particular on a copy of `X`),
the object at `a` still denotes exactly `t`; its stored `size` field still
equals `t.size`, and running `__str__` on it still returns exactly `t.strF`.
Structural operations never change the observable value of existing nodes. -/
theorem copy_isolation (h h2 : Heap) (hch : OpChain h h2) (f : Nat) (a : Addr)
    (t : FeNode) (hd : denoteA f h a = some t)
    (o2 : HObj) (ho2 : h2[a]? = some o2)
    (g : Nat) (s : String) (h3 : Heap) (hs : strHA g h2 a = some (s, h3)) :
    denoteA f h2 a = some t ∧ o2.hsize = t.size ∧ s = t.strF := by
  have hd2 : denoteA f h2 a = some t := OpChain_pres hch f a t hd
  refine ⟨hd2, ?_, strH_refines g h2 a s h3 f t hs hd2⟩
  cases f with
  | zero =>
    rw [denoteA] at hd2
    cases hd2
  | succ f0 =>
    obtain ⟨o, ho, -, -, hsz, -⟩ := denoteA_inv hd2
    rw [ho] at ho2
    injection ho2 with ho2
    rw [← ho2]
    exact hsz

theorem copy_isolation_witness :
    denoteA 1
        [HObj.mk 0 5 1 true none none (.text "hi"),
         HObj.mk 0 5 1 true none none (.text "hi")] 0 =
      some (FeNode.mk 0 5 1 none none (.text "hi")) ∧
    (HObj.mk 0 5 1 true none none (.text "hi")).hsize =
      (FeNode.mk 0 5 1 none none (.text "hi")).size ∧
    "hi" = (FeNode.mk 0 5 1 none none (.text "hi")).strF :=
  copy_isolation
    [HObj.mk 0 5 1 false none none (.text "hi")]
    [HObj.mk 0 5 1 true none none (.text "hi"),
     HObj.mk 0 5 1 true none none (.text "hi")]
    (OpChain.step OpChain.refl (OpStep.copy (a := 0) (r := 1) (by decide)))
    1 0 (FeNode.mk 0 5 1 none none (.text "hi"))
    (by simp [denoteA, denoteO, denotePay])
    (HObj.mk 0 5 1 true none none (.text "hi")) (by decide)
    2 "hi"
    [HObj.mk 0 5 1 false none none (.text "hi"),
     HObj.mk 0 5 1 true none none (.text "hi")]
    (by simp [strHA, strHO, strSelfH, getPrevH, getNextH, pushCopyH,
      pushCopyPrev, pushCopyNext, pushCopyInside, clearCopied,
      amp_escape, amp_map] <;> decide)
